import Mathlib

/-!
Verification of the tjpgdec-rs baseline JPEG decoder core.

This file gives a shallow embedding, in Lean, of the parts of the decoder
that the specification claims talk about: the workspace memory pool
(src/pool.rs), the constant tables and clipping helpers (src/tables.rs),
the fixed-point IDCT and colour constants (src/idct.rs), the Huffman
table construction and the three decode tiers (src/huffman.rs), and the
header parser, buffer-size queries and MCU output loop (src/decoder.rs).

Machine integers are modelled by Nat or Int, with an explicit reduction
modulo 2 to the width wherever the Rust code can wrap (u16 code
arithmetic, u32 bit windows, i16 sample arithmetic).  usize values that
can never overflow in any reachable state (pool offsets, list indices)
are modelled as plain Nat.  Fallible operations return Except or Option.
-/

namespace TJpgd

/-- Error codes of the decoder (src/types.rs, enum Error).  The Ok variant
of the Rust enum is never used as an error payload and is omitted. -/
inductive Err where
  | Interrupted
  | InputErr
  | InsufficientMemory
  | InsufficientBuffer
  | Parameter
  | FormatError
  | UnsupportedFormat
  | UnsupportedStandard
  deriving DecidableEq, Repr

/-- Decidable equality for Except results, used to evaluate the model on
concrete inputs. -/
instance instDecEqExcept {ε α : Type} [DecidableEq ε] [DecidableEq α] :
    DecidableEq (Except ε α) := fun a b =>
  match a, b with
  | .ok x, .ok y =>
    if h : x = y then .isTrue (by rw [h]) else .isFalse (fun hc => h (Except.ok.inj hc))
  | .error x, .error y =>
    if h : x = y then .isTrue (by rw [h]) else .isFalse (fun hc => h (Except.error.inj hc))
  | .ok _, .error _ => .isFalse (fun hc => Except.noConfusion hc)
  | .error _, .ok _ => .isFalse (fun hc => Except.noConfusion hc)

/-! ## Workspace memory pool (src/pool.rs) -/

/-- State of MemoryPool (src/pool.rs): the length of the caller buffer and
the current allocation offset.  The byte contents play no role in the
claims about the allocator. -/
structure MemoryPool where
  bufLen : Nat
  offset : Nat
  deriving DecidableEq, Repr

/-- MemoryPool::new (src/pool.rs lines 45-50). -/
def MemoryPool.new (len : Nat) : MemoryPool := ⟨len, 0⟩

/-- Rounding up to a multiple of 8, written (x + 7) and not 7 in the source;
on Nat this equals the quotient form below. -/
def align8 (x : Nat) : Nat := (x + 7) / 8 * 8

/-- MemoryPool::alloc_aligned (src/pool.rs lines 60-82) specialised to
align = 8, which is the only alignment the decoder itself uses (alloc
forwards to alloc_aligned(size, 8)).  Returns the start offset of the
allocated region together with the new pool state, or none when the
remainder is insufficient. -/
def MemoryPool.allocAligned8 (p : MemoryPool) (size : Nat) : Option (Nat × MemoryPool) :=
  let alignedOffset := align8 p.offset
  let alignedSize := align8 size
  if p.bufLen - alignedOffset < alignedSize then none
  else some (alignedOffset, ⟨p.bufLen, alignedOffset + alignedSize⟩)

/-- MemoryPool::alloc (src/pool.rs lines 55-57). -/
def MemoryPool.alloc (p : MemoryPool) (size : Nat) : Option (Nat × MemoryPool) :=
  p.allocAligned8 size

/-- MemoryPool::remaining (src/pool.rs lines 133-135). -/
def MemoryPool.remaining (p : MemoryPool) : Nat := p.bufLen - p.offset

/-- MemoryPool::used (src/pool.rs lines 138-140). -/
def MemoryPool.used (p : MemoryPool) : Nat := p.offset

/-- MemoryPool::capacity (src/pool.rs lines 143-145). -/
def MemoryPool.capacity (p : MemoryPool) : Nat := p.bufLen

/-- MemoryPool::reset (src/pool.rs lines 148-150). -/
def MemoryPool.reset (p : MemoryPool) : MemoryPool := ⟨p.bufLen, 0⟩

/-- One pool operation from section 4.1 of the spec: an allocation request
(alloc and all its convenience variants reduce to alloc with a byte
count) or reset.  The query operations used, remaining and capacity do
not change the state. -/
inductive PoolOp where
  | alloc (n : Nat)
  | reset
  deriving DecidableEq, Repr

/-- Effect of one pool operation on the pool state (a failed alloc leaves
the state unchanged, as in the source). -/
def PoolOp.apply (op : PoolOp) (p : MemoryPool) : MemoryPool :=
  match op with
  | .alloc n => match p.alloc n with
    | some (_, p2) => p2
    | none => p
  | .reset => p.reset

/-- Pool state after a sequence of operations applied to a fresh pool. -/
def poolAfter (cap : Nat) (ops : List PoolOp) : MemoryPool :=
  ops.foldl (fun p op => op.apply p) (MemoryPool.new cap)

/-- Trace of used() values observed before and after each operation of a
sequence, starting from a fresh pool of the given capacity. -/
def usedTrace (cap : Nat) (ops : List PoolOp) : List Nat :=
  (List.range (ops.length + 1)).map (fun k => (poolAfter cap (ops.take k)).used)

/-! ## Constant tables (src/tables.rs) -/

/-- Zigzag-order to raster-order conversion table (src/tables.rs lines 4-13). -/
def ZIGZAG : List Nat :=
  [0, 1, 8, 16, 9, 2, 3, 10,
   17, 24, 32, 25, 18, 11, 4, 5,
   12, 19, 26, 33, 40, 48, 41, 34,
   27, 20, 13, 6, 7, 14, 21, 28,
   35, 42, 49, 56, 57, 50, 43, 36,
   29, 22, 15, 23, 30, 37, 44, 51,
   58, 59, 52, 45, 38, 31, 39, 46,
   53, 60, 61, 54, 47, 55, 62, 63]

/-- Input scale factors of the Arai algorithm (src/tables.rs lines 17-26). -/
def ARAI_SCALE_FACTOR : List Nat :=
  [8192, 11363, 10703, 9633, 8192, 6436, 4433, 2260,
   11363, 15746, 14852, 13363, 11363, 8930, 6149, 3135,
   10703, 14852, 13983, 12583, 10703, 8410, 5793, 2953,
   9633, 13363, 12583, 11327, 9633, 7568, 5212, 2657,
   8192, 11363, 10703, 9633, 8192, 6436, 4433, 2260,
   6436, 8930, 8410, 7568, 6436, 5057, 3484, 1776,
   4433, 6149, 5793, 5212, 4433, 3484, 2400, 1224,
   2260, 3135, 2953, 2657, 2260, 1776, 1224, 623]

/-- Entry i of CLIP_TABLE (src/tables.rs lines 30-59): the table is built
by four loops, indices 0..255 hold the index, 256..511 hold 255,
512..767 hold 0, and 768..1023 hold (i - 768) as u8. -/
def clipTableEntry (i : Nat) : Nat :=
  if i < 256 then i
  else if i < 512 then 255
  else if i < 768 then 0
  else (i - 768) % 256

/-- byte_clip, table variant (src/tables.rs lines 62-66):
CLIP_TABLE[(val as usize) & 0x3FF].  The cast of the i32 to usize
sign-extends, so masking with 0x3FF is the nonnegative residue of val
modulo 1024, which is what Int.emod computes. -/
def byteClipTable (v : Int) : Nat := clipTableEntry (v % 1024).toNat

/-- byte_clip, arithmetic variant (src/tables.rs lines 69-79). -/
def byteClipArith (v : Int) : Nat :=
  if v < 0 then 0 else if v > 255 then 255 else v.toNat

/-- Arithmetic clamp of an integer to the byte range, as worded by the
claim: 0 below 0, 255 above 255, identity in between. -/
def clamp255 (v : Int) : Nat :=
  if v < 0 then 0 else if v > 255 then 255 else v.toNat

/-! ## Fixed-point constants (src/idct.rs, src/tables.rs)

The Rust source computes each constant as a floating-point product cast
to i32, for example (1.41421 * 4096.0) as i32.  The cast truncates
toward zero.  All eight products lie at least 0.1 away from the nearest
integer while the f64 rounding error is below 1e-9, so each constant
equals the floor of the exact decimal product; the definitions below use
that exact integer arithmetic. -/

/-- Rotation constant M13 of the Arai IDCT (src/idct.rs line 8):
(1.41421 * 4096.0) as i32, the truncation of 1.41421 x 4096 = 5792.60416. -/
def M13 : Int := 141421 * 4096 / 100000

/-- Rotation constant M2 (src/idct.rs line 9): (1.08239 * 4096.0) as i32. -/
def M2 : Int := 108239 * 4096 / 100000

/-- Rotation constant M4 (src/idct.rs line 10): (2.61313 * 4096.0) as i32. -/
def M4 : Int := 261313 * 4096 / 100000

/-- Rotation constant M5 (src/idct.rs line 11): (1.84776 * 4096.0) as i32. -/
def M5 : Int := 184776 * 4096 / 100000

/-- Fixed-point scale for the colour conversion (src/tables.rs line 82). -/
def CVACC : Int := 1024

/-- Conversion factor Cr to R (src/tables.rs line 85):
(1.402 * 1024.0) as i32, the truncation of 1435.648. -/
def CR_TO_R : Int := 1402 * 1024 / 1000

/-- Conversion factor Cb to G (src/tables.rs line 88): (0.344 * 1024.0) as i32. -/
def CB_TO_G : Int := 344 * 1024 / 1000

/-- Conversion factor Cr to G (src/tables.rs line 91): (0.714 * 1024.0) as i32. -/
def CR_TO_G : Int := 714 * 1024 / 1000

/-- Conversion factor Cb to B (src/tables.rs line 94):
(1.772 * 1024.0) as i32, the truncation of 1814.528. -/
def CB_TO_B : Int := 1772 * 1024 / 1000

/-- Modelled from the spec: round(a x b / den), the nearest integer to the
rational product the spec states for each fixed-point coefficient, with
ties rounded up.  For a nonnegative rational q, round(q) equals the
floor of q + 1/2, which is the Nat quotient below. -/
def roundScaled (a b den : Nat) : Nat := (2 * a * b + den) / (2 * den)

/-- Modelled from the spec: round(sqrt(S)) for a natural S, used for the
spec phrase round(sqrt(2) x 4096) with S = 2 x 4096 ^ 2.  For x >= 0,
round(x) = floor((2 x + 1) / 2) and floor(2 sqrt(S)) = Nat.sqrt (4 S). -/
def roundSqrt (S : Nat) : Nat := (Nat.sqrt (4 * S) + 1) / 2

/-! ## Huffman table construction (src/huffman.rs) -/

/-- Huffman coding table (src/huffman.rs, struct HuffmanTable), without
the fast-decode-2 lookup table slot: the crate's default feature set
selects JD_FASTDECODE level 1, and the level 2 lookup table is modelled
separately by buildLut below. -/
structure HTable where
  bits : List Nat
  codes : List Nat
  data : List Nat
  numCodes : Nat
  deriving DecidableEq, Repr

/-- Canonical code emission loop of HuffmanTable::create_in_pool
(src/huffman.rs lines 84-94): for each of the 16 length counts, emit
count consecutive codes, incrementing after each, then shift the code
left by one.  code is a u16: the increment and the shift wrap modulo
2 ^ 16 (the shift silently, the increment under release overflow
semantics). -/
def buildCodes : List Nat → Nat → List Nat
  | [], _ => []
  | c :: rest, code =>
      ((List.range c).map (fun k => (code + k) % 65536)) ++
        buildCodes rest ((code + c) % 65536 * 2 % 65536)

/-- HuffmanTable::create_in_pool (src/huffman.rs lines 57-114): checks the
histogram length and the symbol count, allocates the codes array (2
bytes per u16 code) and the data array from the pool, and emits the
canonical codes. -/
def createInPool (pool : MemoryPool) (bits values : List Nat) :
    Except Err (HTable × MemoryPool) :=
  if bits.length ≠ 16 then .error .FormatError
  else if values.length ≠ bits.sum then .error .FormatError
  else
    match pool.alloc (bits.sum * 2) with
    | none => .error .InsufficientMemory
    | some (_, pool1) =>
      match pool1.alloc bits.sum with
      | none => .error .InsufficientMemory
      | some (_, pool2) =>
        .ok (⟨bits, buildCodes bits 0, values, bits.sum⟩, pool2)

/-! ## Bit stream and the three decode tiers (src/huffman.rs) -/

/-- Bit stream reader state (src/huffman.rs, struct BitStream): the input
bytes, the read cursor, the 32-bit register, the count of valid bits,
the pending marker byte, and the bit mask used by the fast-decode-0
tier.  Input bytes are u8: every read below reduces modulo 256. -/
structure BitStream where
  data : List Nat
  pos : Nat
  bitBuffer : Nat
  bitsInBuffer : Nat
  markerFound : Option Nat
  bitMask : Nat
  deriving DecidableEq, Repr

/-- BitStream::new (src/huffman.rs lines 402-412). -/
def BitStream.new (data : List Nat) : BitStream := ⟨data, 0, 0, 0, none, 0⟩

/-- Register fill loop shared verbatim by decode_fastdecode1 (src/huffman.rs
lines 230-265) and decode_fastdecode2 (lines 308-343): dc counts the
unread bytes (dc = 0 is pos at the end), flg marks a pending 0xFF, and
each round either emits a 0xFF padding byte after a marker, skips the
escape byte, or shifts one destuffed byte into the 32-bit window
(w << 8 | d wraps modulo 2 ^ 32; the low-byte OR is addition).  Each
round consumes a byte or adds 8 bits, so the unread byte count plus
three bounds the rounds for target 16; fuel carries that bound and
exhaustion is unreachable from the entry points below. -/
def fillWindowAux (fuel target : Nat) (data : List Nat) (pos : Nat)
    (marker : Option Nat) (w wbit : Nat) (flg : Bool) :
    Except Err (Nat × Nat × Nat × Option Nat) :=
  match fuel with
  | 0 => .error .InputErr
  | fuel + 1 =>
    if wbit < target then
      match marker with
      | some _ =>
        fillWindowAux fuel target data pos marker (w * 256 % 4294967296 + 255) (wbit + 8) flg
      | none =>
        if pos < data.length then
          let byte := data.getD pos 0 % 256
          if flg then
            fillWindowAux fuel target data (pos + 1)
              (if byte ≠ 0 then some byte else none)
              (w * 256 % 4294967296 + 255) (wbit + 8) false
          else if byte = 255 then
            fillWindowAux fuel target data (pos + 1) marker w wbit true
          else
            fillWindowAux fuel target data (pos + 1) marker
              (w * 256 % 4294967296 + byte) (wbit + 8) false
        else .error .InputErr
    else .ok (w, wbit, pos, marker)

/-- Window and bit count taken from the stream state at the start of
decode_fastdecode1 and decode_fastdecode2 (src/huffman.rs lines
220-229): wbit is bits_in_buffer mod 32 and w keeps the low wbit bits
of the register. -/
def windowOf (s : BitStream) : Nat × Nat :=
  let wbit := s.bitsInBuffer % 32
  ((if 0 < wbit ∧ wbit < 32 then s.bitBuffer % 2 ^ wbit
    else if wbit = 0 then 0 else s.bitBuffer), wbit)

/-- Inner scan of one code-length block (src/huffman.rs lines 280-287,
371-377 and 203-209): compare d against codes[idx], codes[idx+1], ...
for cnt steps, guarded by idx < num_codes; the first hit returns the
parallel symbol. -/
def scanBlock (codes dataArr : List Nat) (num d : Nat) : Nat → Nat → Option Nat
  | _, 0 => none
  | idx, cnt + 1 =>
    if idx < num ∧ codes.getD idx 0 = d then some (dataArr.getD idx 0)
    else scanBlock codes dataArr num d (idx + 1) cnt

/-- Incremental code search over bit lengths (src/huffman.rs lines
271-288; lines 360-378 run the same loop from HUFF_BIT with the long
offset): rem is the number of lengths still to try and k the zero-based
length index, so the code length is bl = k + 1 and the top bl bits of
the window are compared as a u16.  Returns the symbol and the matched
length. -/
def searchFrom (t : HTable) (w wbit : Nat) : Nat → Nat → Nat → Except Err (Nat × Nat)
  | 0, _, _ => .error .FormatError
  | rem + 1, k, idx =>
    let bl := k + 1
    let cnt := t.bits.getD k 0
    if 0 < cnt then
      let d := w / 2 ^ (wbit - bl) % 65536
      match scanBlock t.codes t.data t.numCodes d idx cnt with
      | some sym => .ok (sym, bl)
      | none => searchFrom t w wbit rem (k + 1) (idx + cnt)
    else searchFrom t w wbit rem (k + 1) (idx + cnt)

/-- HuffmanTable::decode_fastdecode1 (src/huffman.rs lines 218-291).  On
success the stream keeps the filled window with the matched bits
consumed; on failure the result drops the partially advanced stream,
which the claims about returned symbols never observe. -/
def decode1 (t : HTable) (s : BitStream) : Except Err (Nat × BitStream) :=
  let w0 := (windowOf s).1
  let wbit0 := (windowOf s).2
  match fillWindowAux (s.data.length + 3) 16 s.data s.pos s.markerFound w0 wbit0 false with
  | .error e => .error e
  | .ok (w, wbit, pos, marker) =>
    match searchFrom t w wbit 16 0 0 with
    | .error e => .error e
    | .ok (sym, bl) =>
      .ok (sym, { s with bitBuffer := w, bitsInBuffer := wbit - bl, pos := pos,
                         markerFound := marker })

/-- One span write of build_fast_lut (src/huffman.rs lines 146-150): the
entry is replicated over span consecutive slots, each guarded by the
table length. -/
def lutWrite (f : Nat → Nat) (tableIdx span entry : Nat) : Nat → Nat :=
  fun j => if tableIdx ≤ j ∧ j < tableIdx + span ∧ j < 1024 then entry else f j

/-- Inner per-code loop of build_fast_lut for one bit length
(src/huffman.rs lines 131-151): the code length is bitLen + 1, shift is
HUFF_BIT - 1 - bitLen, the table index is the u16 shift of the code
masked into the table, and the entry packs the symbol byte with the
code length.  The early break fires when idx reaches num_codes. -/
def lutFillLen (codes dataArr : List Nat) (num bitLen : Nat) :
    Nat → Nat → (Nat → Nat) → Nat × (Nat → Nat)
  | 0, idx, f => (idx, f)
  | cnt + 1, idx, f =>
    if idx ≥ num then (idx, f)
    else
      let code := codes.getD idx 0
      let dat := dataArr.getD idx 0 % 256
      let shift := 10 - 1 - bitLen
      lutFillLen codes dataArr num bitLen cnt (idx + 1)
        (lutWrite f (code * 2 ^ shift % 65536 % 1024) (2 ^ shift) (dat + (bitLen + 1) * 256))

/-- Outer loop of build_fast_lut over the zero-based length indices
0..HUFF_BIT (src/huffman.rs lines 127-152), threading idx and the
table. -/
def lutFillAux (t : HTable) : Nat → Nat → Nat → (Nat → Nat) → Nat × (Nat → Nat)
  | 0, _, idx, f => (idx, f)
  | rem + 1, bitLen, idx, f =>
    let r := lutFillLen t.codes t.data t.numCodes bitLen (t.bits.getD bitLen 0) idx f
    lutFillAux t rem (bitLen + 1) r.1 r.2

/-- HuffmanTable::build_fast_lut (src/huffman.rs lines 118-157): the table
starts as all 0xFFFF and long_offset records how many short codes were
consumed.  The 1024-entry array is modelled as a function on indices. -/
def buildLut (t : HTable) : (Nat → Nat) × Nat :=
  let r := lutFillAux t 10 0 0 (fun _ => 65535)
  (r.2, r.1)

/-- HuffmanTable::decode_fastdecode2 (src/huffman.rs lines 296-382), with
the lookup table and long offset built by buildLut: the same register
fill, then the top HUFF_BIT = 10 bits index the table; a non-sentinel
entry yields the symbol and its length, otherwise the incremental
search runs only over the long lengths starting at the long offset. -/
def decode2 (t : HTable) (lut : Nat → Nat) (longOffset : Nat) (s : BitStream) :
    Except Err (Nat × BitStream) :=
  let w0 := (windowOf s).1
  let wbit0 := (windowOf s).2
  match fillWindowAux (s.data.length + 3) 16 s.data s.pos s.markerFound w0 wbit0 false with
  | .error e => .error e
  | .ok (w, wbit, pos, marker) =>
    let d := w / 2 ^ (wbit - 10)
    if d < 1024 ∧ lut d ≠ 65535 then
      .ok (lut d % 256, { s with bitBuffer := w, bitsInBuffer := wbit - lut d / 256,
                                 pos := pos, markerFound := marker })
    else
      match searchFrom t w wbit 6 10 longOffset with
      | .error e => .error e
      | .ok (sym, bl) =>
        .ok (sym, { s with bitBuffer := w, bitsInBuffer := wbit - bl, pos := pos,
                           markerFound := marker })

/-- Refill step of BitStream::read_bit_level0 (src/huffman.rs lines
421-449): when the bit mask is exhausted the next byte is pulled in
(every path through the source loop breaks or fails, so the loop body
runs at most once): after a pending marker a further input byte is
consumed and 0xFF enters the one-byte buffer; a 0xFF byte consumes its
escape companion. -/
def refill0 (s : BitStream) : Except Err BitStream :=
  if s.bitMask = 0 then
    if s.pos < s.data.length then
      let byte := s.data.getD s.pos 0 % 256
      if s.markerFound.isSome then
        .ok { s with pos := s.pos + 1, bitBuffer := 255, bitMask := 128 }
      else if byte = 255 then
        if s.pos + 1 < s.data.length then
          let nxt := s.data.getD (s.pos + 1) 0 % 256
          .ok { s with pos := s.pos + 2,
                       markerFound := if nxt ≠ 0 then some nxt else s.markerFound,
                       bitBuffer := 255, bitMask := 128 }
        else .error .InputErr
      else .ok { s with pos := s.pos + 1, bitBuffer := byte, bitMask := 128 }
    else .error .InputErr
  else .ok s

/-- BitStream::read_bit_level0 (src/huffman.rs lines 417-461): refill the
one-byte buffer if needed, then return the bit under the mask and shift
the mask right. -/
def readBitLevel0 (s : BitStream) : Except Err (Nat × BitStream) :=
  match refill0 s with
  | .error e => .error e
  | .ok s2 =>
    .ok ((if s2.bitBuffer % 256 &&& s2.bitMask ≠ 0 then 1 else 0),
         { s2 with bitMask := s2.bitMask / 2 })

/-- HuffmanTable::decode_fastdecode0 (src/huffman.rs lines 192-213): read
one bit per length, accumulate the code in the u16 d, and scan that
length block; rem counts the lengths still to try and k is the
zero-based length index. -/
def decode0Aux (t : HTable) : Nat → Nat → Nat → Nat → BitStream →
    Except Err (Nat × BitStream)
  | 0, _, _, _, _ => .error .FormatError
  | rem + 1, k, d, idx, s =>
    match readBitLevel0 s with
    | .error e => .error e
    | .ok (bit, s1) =>
      let d1 := (d * 2 + bit) % 65536
      let cnt := t.bits.getD k 0
      match scanBlock t.codes t.data t.numCodes d1 idx cnt with
      | some sym => .ok (sym, s1)
      | none => decode0Aux t rem (k + 1) d1 (idx + cnt) s1

/-- Entry point of decode_fastdecode0. -/
def decode0 (t : HTable) (s : BitStream) : Except Err (Nat × BitStream) :=
  decode0Aux t 16 0 0 0 s

/-! ## Decoder state and header parser (src/decoder.rs, src/types.rs) -/

/-- Chroma subsampling pattern (src/types.rs, enum SamplingFactor). -/
inductive SamplingFactor where
  | yuv444
  | yuv422
  | yuv420
  deriving DecidableEq, Repr

/-- SamplingFactor::from_factor (src/types.rs lines 126-133). -/
def SamplingFactor.fromFactor (h v : Nat) : Option SamplingFactor :=
  if h = 1 ∧ v = 1 then some .yuv444
  else if h = 2 ∧ v = 1 then some .yuv422
  else if h = 2 ∧ v = 2 then some .yuv420
  else none

/-- SamplingFactor::mcu_width (src/types.rs lines 136-141). -/
def SamplingFactor.mcuWidth : SamplingFactor → Nat
  | .yuv444 => 1
  | .yuv422 => 2
  | .yuv420 => 2

/-- SamplingFactor::mcu_height (src/types.rs lines 144-149). -/
def SamplingFactor.mcuHeight : SamplingFactor → Nat
  | .yuv444 => 1
  | .yuv422 => 1
  | .yuv420 => 2

/-- Decoder state (src/decoder.rs, struct JpegDecoder).  The raw table
pointers of the Rust struct become Option slots; a null pointer is
none.  The u16 dimensions and u8 counters are Nat. -/
structure JpegDecoder where
  width : Nat
  height : Nat
  numComponents : Nat
  sampling : SamplingFactor
  huffDc : List (Option HTable)
  huffAc : List (Option HTable)
  qtables : List (Option (List Int))
  qtableIds : List Nat
  restartInterval : Nat
  scale : Nat
  sosPosition : Nat
  deriving DecidableEq, Repr

/-- JpegDecoder::new (src/decoder.rs lines 104-121). -/
def JpegDecoder.new : JpegDecoder :=
  ⟨0, 0, 0, .yuv444, [none, none], [none, none], [none, none, none, none],
   [0, 0, 0], 0, 0, 0⟩

/-- Per-component body of the parse_sof loop (src/decoder.rs lines
223-244): component 0 decodes the packed H/V byte, later components
must carry 0x11; the quant-table id is stored for i < 3 and ids above 3
are a format error. -/
def sofCompStep (data : List Nat) (st : JpegDecoder) (i : Nat) :
    Except Err JpegDecoder := do
  let compStart := 6 + i * 3
  let samplingFactor := data.getD (compStart + 1) 0
  let qtableId := data.getD (compStart + 2) 0
  let st1 ←
    if i = 0 then
      match SamplingFactor.fromFactor (samplingFactor / 16) (samplingFactor % 16) with
      | none => Except.error Err.UnsupportedFormat
      | some s => Except.ok { st with sampling := s }
    else if samplingFactor ≠ 17 then Except.error Err.UnsupportedFormat
    else Except.ok st
  let st2 := if i < 3 then { st1 with qtableIds := st1.qtableIds.set i qtableId } else st1
  if qtableId > 3 then Except.error Err.FormatError else Except.ok st2

/-- JpegDecoder::parse_sof (src/decoder.rs lines 201-247). -/
def parseSof (data : List Nat) (st : JpegDecoder) : Except Err JpegDecoder :=
  if data.length < 6 then .error .FormatError
  else if data.getD 0 0 ≠ 8 then .error .UnsupportedFormat
  else
    let height := data.getD 1 0 * 256 + data.getD 2 0
    let width := data.getD 3 0 * 256 + data.getD 4 0
    let n := data.getD 5 0
    let st := { st with height := height, width := width, numComponents := n }
    if n ≠ 1 ∧ n ≠ 3 then .error .UnsupportedStandard
    else if data.length < 6 + n * 3 then .error .FormatError
    else (List.range n).foldlM (fun s i => sofCompStep data s i) st

/-- JpegDecoder::parse_dht (src/decoder.rs lines 249-294): sub-tables are
consumed until the segment is empty.  Each iteration consumes at least
17 bytes, so the initial segment length plus one bounds the number of
iterations; the fuel argument carries this bound (exhaustion is not
reachable from the entry point below).  The 56-byte allocation is
size_of::<HuffmanTable>() on a 64-bit target: the 16 histogram bytes,
two 16-byte slice references and the 8-byte code count. -/
def parseDhtAux (fuel : Nat) (data : List Nat) (st : JpegDecoder) (pool : MemoryPool) :
    Except Err (JpegDecoder × MemoryPool) :=
  match fuel with
  | 0 => .error .FormatError
  | fuel + 1 =>
    if data.isEmpty then .ok (st, pool)
    else if data.length < 17 then .error .FormatError
    else
      let tableInfo := data.getD 0 0
      let cls := tableInfo / 16 % 2
      let id := tableInfo % 16
      if id > 1 then .error .FormatError
      else
        let bits := (data.drop 1).take 16
        let numCodes := bits.sum
        if data.length < 17 + numCodes then .error .FormatError
        else
          let values := (data.drop 17).take numCodes
          match createInPool pool bits values with
          | .error e => .error e
          | .ok (table, pool1) =>
            match pool1.alloc 56 with
            | none => .error .InsufficientMemory
            | some (_, pool2) =>
              let st2 := if cls = 0 then { st with huffDc := st.huffDc.set id (some table) }
                         else { st with huffAc := st.huffAc.set id (some table) }
              parseDhtAux fuel (data.drop (17 + numCodes)) st2 pool2

/-- Entry point of parse_dht with sufficient fuel. -/
def parseDht (data : List Nat) (st : JpegDecoder) (pool : MemoryPool) :
    Except Err (JpegDecoder × MemoryPool) :=
  parseDhtAux (data.length + 1) data st pool

/-- Quantization coefficient store loop of parse_dqt (src/decoder.rs lines
315-337): entry i of the segment, read narrow or wide, is multiplied by
the Arai scale factor of its zigzag position and written at the
zigzag-mapped raster index.  The u32 product stays below 2 ^ 31
(largest case 65535 x 15746), so the cast to i32 is the identity. -/
def buildQtable (data : List Nat) (wide : Bool) : List Int :=
  (List.range 64).foldl (fun q i =>
    let zi := ZIGZAG.getD i 0
    let qv : Nat := if wide then data.getD (1 + i * 2) 0 * 256 + data.getD (2 + i * 2) 0
                    else data.getD (1 + i) 0
    q.set zi ((qv * ARAI_SCALE_FACTOR.getD zi 0 : Nat) : Int)) (List.replicate 64 0)

/-- JpegDecoder::parse_dqt (src/decoder.rs lines 296-344), fueled like
parse_dht (each iteration consumes at least 65 bytes). -/
def parseDqtAux (fuel : Nat) (data : List Nat) (st : JpegDecoder) (pool : MemoryPool) :
    Except Err (JpegDecoder × MemoryPool) :=
  match fuel with
  | 0 => .error .FormatError
  | fuel + 1 =>
    if data.isEmpty then .ok (st, pool)
    else
      let tableInfo := data.getD 0 0
      let precision := tableInfo / 16 % 16
      let id := tableInfo % 16
      if id > 3 then .error .FormatError
      else
        match pool.alloc (64 * 4) with
        | none => .error .InsufficientMemory
        | some (_, pool1) =>
          if precision = 0 then
            if data.length < 65 then .error .FormatError
            else parseDqtAux fuel (data.drop 65)
              { st with qtables := st.qtables.set id (some (buildQtable data false)) } pool1
          else
            if data.length < 129 then .error .FormatError
            else parseDqtAux fuel (data.drop 129)
              { st with qtables := st.qtables.set id (some (buildQtable data true)) } pool1

/-- Entry point of parse_dqt with sufficient fuel. -/
def parseDqt (data : List Nat) (st : JpegDecoder) (pool : MemoryPool) :
    Except Err (JpegDecoder × MemoryPool) :=
  parseDqtAux (data.length + 1) data st pool

/-- JpegDecoder::parse_dri (src/decoder.rs lines 346-352). -/
def parseDri (data : List Nat) (st : JpegDecoder) : Except Err JpegDecoder :=
  if data.length < 2 then .error .FormatError
  else .ok { st with restartInterval := data.getD 0 0 * 256 + data.getD 1 0 }

/-- JpegDecoder::parse_sos (src/decoder.rs lines 354-377): checks the
component count byte and that every required Huffman and quant slot is
populated. -/
def parseSosChecks (data : List Nat) (st : JpegDecoder) : Except Err Unit :=
  if data.isEmpty then .error .FormatError
  else if data.getD 0 0 ≠ st.numComponents then .error .FormatError
  else
    (List.range st.numComponents).foldlM (fun _ i =>
      let tableId := if i = 0 then 0 else 1
      if (st.huffDc.getD tableId none).isNone ∨ (st.huffAc.getD tableId none).isNone then
        Except.error Err.FormatError
      else if (st.qtables.getD (st.qtableIds.getD i 0) none).isNone then
        Except.error Err.FormatError
      else Except.ok ()) ()

/-- Marker walk of JpegDecoder::prepare (src/decoder.rs lines 159-198).
Each iteration advances pos by at least 4, so the input length plus one
bounds the number of iterations and serves as fuel (exhaustion is
unreachable from the entry point). -/
def prepareLoop (fuel : Nat) (data : List Nat) (st : JpegDecoder) (pool : MemoryPool)
    (pos : Nat) : Except Err (JpegDecoder × MemoryPool) :=
  match fuel with
  | 0 => .error .InputErr
  | fuel + 1 =>
    if data.length < pos + 4 then .error .InputErr
    else
      let marker := data.getD pos 0 * 256 + data.getD (pos + 1) 0
      let len := data.getD (pos + 2) 0 * 256 + data.getD (pos + 3) 0
      if len < 2 ∨ marker / 256 ≠ 255 then .error .FormatError
      else
        let segStart := pos + 4
        let segLen := len - 2
        if data.length < segStart + segLen then .error .InputErr
        else
          let segment := (data.drop segStart).take segLen
          let mk := marker % 256
          if mk = 0xC0 then
            match parseSof segment st with
            | .error e => .error e
            | .ok st2 => prepareLoop fuel data st2 pool (segStart + segLen)
          else if mk = 0xC4 then
            match parseDht segment st pool with
            | .error e => .error e
            | .ok (st2, pool2) => prepareLoop fuel data st2 pool2 (segStart + segLen)
          else if mk = 0xDB then
            match parseDqt segment st pool with
            | .error e => .error e
            | .ok (st2, pool2) => prepareLoop fuel data st2 pool2 (segStart + segLen)
          else if mk = 0xDD then
            match parseDri segment st with
            | .error e => .error e
            | .ok st2 => prepareLoop fuel data st2 pool (segStart + segLen)
          else if mk = 0xDA then
            match parseSosChecks segment st with
            | .error e => .error e
            | .ok _ => .ok ({ st with sosPosition := pos }, pool)
          else if mk = 0xD9 then .error .FormatError
          else if 0xC0 ≤ mk ∧ mk ≤ 0xCF then .error .UnsupportedStandard
          else prepareLoop fuel data st pool (segStart + segLen)

/-- JpegDecoder::prepare (src/decoder.rs lines 145-199). -/
def prepare (data : List Nat) (pool : MemoryPool) : Except Err (JpegDecoder × MemoryPool) :=
  if data.length < 2 then .error .InputErr
  else
    let marker := data.getD 0 0 * 256 + data.getD 1 0
    if marker ≠ 0xFFD8 then .error .FormatError
    else prepareLoop (data.length + 1) data JpegDecoder.new pool 2

/-- JpegDecoder::mcu_buffer_size (src/decoder.rs lines 495-499), in i16
elements. -/
def JpegDecoder.mcuBufferSize (d : JpegDecoder) : Nat :=
  (d.sampling.mcuWidth * d.sampling.mcuHeight + 2) * 64

/-- JpegDecoder::work_buffer_size (src/decoder.rs lines 504-508), in
bytes; the source multiplies by 3 regardless of the component count. -/
def JpegDecoder.workBufferSize (d : JpegDecoder) : Nat :=
  d.sampling.mcuWidth * 8 * d.sampling.mcuHeight * 8 * 3

/-! ## Sign extension (src/decoder.rs) -/

/-- Signed reinterpretation of the low 16 bits of a natural number, the
Rust cast v as i16 for v : u16. -/
def toI16 (v : Nat) : Int :=
  if v % 65536 < 32768 then ((v % 65536 : Nat) : Int)
  else ((v % 65536 : Nat) : Int) - 65536

/-- Wrapping of an integer into the i16 range, the two's-complement result
of i16 arithmetic under release-mode overflow semantics. -/
def wrap16 (x : Int) : Int :=
  if x % 65536 < 32768 then x % 65536
  else x % 65536 - 65536

/-- JpegDecoder::extend (src/decoder.rs lines 655-662).  The source is
`let vt = 1 << (t - 1); if (v as i16) < vt { v as i16 + ((-1i16) << t) + 1 } else { v as i16 }`
with vt : i16.  1i16 << (t-1) is the signed reinterpretation of the bit
pattern 2 ^ ((t-1) mod 16) (Rust masks the shift amount in release
builds; for t = 16 the shift 15 gives the pattern 0x8000, read as
-32768).  (-1i16) << t has the signed value -(2 ^ (t mod 16)), and the
i16 additions wrap. -/
def extend (v : Nat) (t : Nat) : Int :=
  if toI16 v < toI16 (2 ^ ((t - 1) % 16)) then
    wrap16 (toI16 v - 2 ^ (t % 16) + 1)
  else toI16 v

/-! ## Colour conversion and MCU output (src/idct.rs, src/decoder.rs) -/

/-- Rectangular output region (src/types.rs, struct Rectangle), with
inclusive coordinates. -/
structure Rect where
  left : Nat
  right : Nat
  top : Nat
  bottom : Nat
  deriving DecidableEq, Repr

/-- color::ycbcr_to_rgb (src/idct.rs lines 126-132), with the arithmetic
variant of byte_clip (the default feature set does not enable
table-clip).  Rust i32 division truncates toward zero: Int.tdiv. -/
def ycbcrToRgb (y cb cr : Int) : List Nat :=
  [byteClipArith (y + Int.tdiv (CR_TO_R * cr) CVACC),
   byteClipArith (y - Int.tdiv (CB_TO_G * cb + CR_TO_G * cr) CVACC),
   byteClipArith (y + Int.tdiv (CB_TO_B * cb) CVACC)]

/-- color::mcu_to_rgb (src/idct.rs lines 153-196): emits 3 bytes per MCU
pixel in the nested loop order of the source.  The i16 samples are Int;
slice indexing out of range reads 0 (in the decoder the indices are
always in range). -/
def mcuToRgb (yBlock cbBlock crBlock : List Int) (mw mh sh sv : Nat) : List Nat :=
  (List.range mh).flatMap fun bY =>
    (List.range 8).flatMap fun y =>
      (List.range mw).flatMap fun bx =>
        (List.range 8).flatMap fun x =>
          let absY := bY * 8 + y
          let absX := bx * 8 + x
          let yy := yBlock.getD ((bY * mw + bx) * 64 + y * 8 + x) 0
          let cbIdx := absY / sv * 8 + absX / sh
          ycbcrToRgb yy (cbBlock.getD cbIdx 0 - 128) (crBlock.getD cbIdx 0 - 128)

/-- color::mcu_to_grayscale (src/idct.rs lines 199-218). -/
def mcuToGrayscale (yBlock : List Int) (mw mh : Nat) : List Nat :=
  (List.range mh).flatMap fun bY =>
    (List.range 8).flatMap fun y =>
      (List.range mw).flatMap fun bx =>
        (List.range 8).flatMap fun x =>
          [byteClipArith (yBlock.getD ((bY * mw + bx) * 64 + y * 8 + x) 0)]

/-- Row compaction loop of output_mcu (src/decoder.rs lines 714-731): when
the clipped scaled width rx is below the full scaled MCU width mx, the
rows are compacted in place, three bytes per pixel; the source reads
always run ahead of the writes, so each read sees the original buffer.
Bytes beyond the compacted region keep their old values. -/
def compactRows (buf : List Nat) (rx ry mx : Nat) : List Nat :=
  if rx < mx then
    ((List.range (ry * rx * 3)).map (fun i =>
      buf.getD (i / (rx * 3) * (mx * 3) + i % (rx * 3)) 0)) ++ buf.drop (ry * rx * 3)
  else buf

/-- JpegDecoder::output_mcu (src/decoder.rs lines 664-740).  Returns the
result together with the sink invocation (pixels and rectangle) when
the sink was called; none records that the MCU was skipped.  The u16
clippings width - x and height - y are Nat subtractions, and the right
shifts by scale are divisions by 2 ^ scale. -/
def outputMcu (d : JpegDecoder) (mcuBuffer : List Int) (x y : Nat)
    (cb : List Nat → Rect → Except Err Bool) :
    Except Err Unit × Option (List Nat × Rect) :=
  let mw := d.sampling.mcuWidth
  let mh := d.sampling.mcuHeight
  let outW := min (mw * 8) (d.width - x)
  let outH := min (mh * 8) (d.height - y)
  let sw := outW / 2 ^ d.scale
  let sh := outH / 2 ^ d.scale
  if sw = 0 ∨ sh = 0 then (.ok (), none)
  else
    let rect : Rect := ⟨x / 2 ^ d.scale, x / 2 ^ d.scale + sw - 1,
                        y / 2 ^ d.scale, y / 2 ^ d.scale + sh - 1⟩
    let numYBlocks := mw * mh
    let buf :=
      if d.numComponents = 3 then
        mcuToRgb (mcuBuffer.take (numYBlocks * 64))
          ((mcuBuffer.drop (numYBlocks * 64)).take 64)
          ((mcuBuffer.drop ((numYBlocks + 1) * 64)).take 64)
          mw mh mw mh
      else mcuToGrayscale mcuBuffer mw mh
    let buf2 := compactRows buf sw sh (mw * 8 / 2 ^ d.scale)
    match cb buf2 rect with
    | .error e => (.error e, some (buf2, rect))
    | .ok false => (.error .Interrupted, some (buf2, rect))
    | .ok true => (.ok (), some (buf2, rect))

/-- Values visited by a Rust range (0..limit).step_by(step) for positive
step. -/
def stepRange (limit step : Nat) : List Nat :=
  (List.range ((limit + step - 1) / step)).map (· * step)

/-- MCU raster order of the decompress loop (src/decoder.rs lines
456-457): rows by mcu_pixel_height, columns by mcu_pixel_width. -/
def mcuCoords (d : JpegDecoder) : List (Nat × Nat) :=
  (stepRange d.height (d.sampling.mcuHeight * 8)).flatMap fun y =>
    (stepRange d.width (d.sampling.mcuWidth * 8)).map fun x => (x, y)

/-- Per-MCU loop of decompress (src/decoder.rs lines 456-487).  The
restart handling, the Huffman decoding of the MCU blocks and the bit
stream all live in the abstract per-MCU state σ; step performs lines
458-473 and yields the decoded MCU sample buffer.  The trace collects
the sink invocations in order; decoding or sink errors abort the loop
exactly as the question-mark operator does in the source. -/
def runMcus {σ : Type} (d : JpegDecoder) (step : σ → Except Err (σ × List Int))
    (cb : List Nat → Rect → Except Err Bool) :
    List (Nat × Nat) → σ → Except Err Unit × List (List Nat × Rect)
  | [], _ => (.ok (), [])
  | (x, y) :: rest, s =>
    match step s with
    | .error e => (.error e, [])
    | .ok (s1, buf) =>
      match outputMcu d buf x y cb with
      | (.error e, inv) => (.error e, inv.toList)
      | (.ok _, inv) =>
        let r := runMcus d step cb rest s1
        (r.1, inv.toList ++ r.2)

/-- JpegDecoder::decompress (src/decoder.rs lines 419-490) with the
per-MCU decoding abstracted by step: the scale and buffer-length checks
of lines 427-440, then the MCU loop.  Locating the entropy segment
(find_scan_data) only initialises the bit stream inside σ. -/
def decompressWith {σ : Type} (d : JpegDecoder) (scale mcuLen workLen : Nat)
    (step : σ → Except Err (σ × List Int)) (cb : List Nat → Rect → Except Err Bool)
    (s0 : σ) : Except Err Unit × List (List Nat × Rect) :=
  if scale > 3 then (.error .Parameter, [])
  else if mcuLen < d.mcuBufferSize then (.error .InsufficientMemory, [])
  else if workLen < d.workBufferSize then (.error .InsufficientMemory, [])
  else
    let d2 := { d with scale := scale }
    runMcus d2 step cb (mcuCoords d2) s0

/-! ## Claims C2, C3, C4, C5, C8 -/

/-- Minimal grayscale baseline JPEG header stream: SOI, an 8-bit DQT in
slot 0 with all coefficients 1, a SOF0 for an 8 x 8 single-component
image with sampling 0x11, a one-code DC0 table, a one-code AC0 table,
and the SOS segment. -/
def grayJpeg : List Nat :=
  [0xFF, 0xD8,
   0xFF, 0xDB, 0x00, 0x43, 0x00] ++ List.replicate 64 1 ++
  ([0xFF, 0xC0, 0x00, 0x0B, 8, 0, 8, 0, 8, 1, 1, 0x11, 0,
    0xFF, 0xC4, 0x00, 0x14, 0x00] ++ (1 :: List.replicate 15 0) ++ [0x00] ++
   [0xFF, 0xC4, 0x00, 0x14, 0x10] ++ (1 :: List.replicate 15 0) ++ [0x00] ++
   [0xFF, 0xDA, 0x00, 0x08, 1, 1, 0x00, 0x00, 0x3F, 0x00])

/-- Quantization table produced from the all-ones DQT of grayJpeg: every
raw coefficient is 1, so the stored table is exactly the Arai scale
factor table. -/
def grayQtable : List Int := ARAI_SCALE_FACTOR.map (fun x => (x : Int))

/-- Decoder state produced by prepare on grayJpeg. -/
def grayPrepared : JpegDecoder :=
  { width := 8, height := 8, numComponents := 1, sampling := .yuv444,
    huffDc := [some ⟨[1, 0, 0, 0, 0, 0, 0, 0, 0, 0, 0, 0, 0, 0, 0, 0], [0], [0], 1⟩, none],
    huffAc := [some ⟨[1, 0, 0, 0, 0, 0, 0, 0, 0, 0, 0, 0, 0, 0, 0, 0], [0], [0], 1⟩, none],
    qtables := [some grayQtable, none, none, none],
    qtableIds := [0, 0, 0], restartInterval := 0, scale := 0, sosPosition := 128 }

/-- Allocator invariant: every pool state reachable from a fresh pool has
an 8-aligned offset bounded by the buffer length. -/
def PoolInv (p : MemoryPool) : Prop := p.offset % 8 = 0 ∧ p.offset ≤ p.bufLen

/-! ## Claims C9 and C10 -/

/-- Plain grayscale 8 x 8 decoder geometry used by the closed instances
below: one 1 x 1-sampling component, raw size 8 x 8. -/
def gray8 : JpegDecoder :=
  { JpegDecoder.new with width := 8, height := 8, numComponents := 1, sampling := .yuv444 }

/-! ## Claims C1 and C7: canonical Huffman codes and the decode tiers -/

/-- Modelled from the spec: the canonical-code construction in exact
integer arithmetic, with no u16 reduction: starting at code = 0, for
each bit length emit bits[L] consecutive codes incrementing after each,
then shift the code left by one. -/
def natBuild : List Nat → Nat → List Nat
  | [], _ => []
  | b :: rest, c => (List.range b).map (c + ·) ++ natBuild rest ((c + b) * 2)

/-- Start code of the canonical construction after k length groups of the
histogram suffix have been emitted, in exact integer arithmetic. -/
def natStS : List Nat → Nat → Nat → Nat
  | _, c, 0 => c
  | [], c, _ + 1 => c
  | b :: rest, c, k + 1 => natStS rest ((c + b) * 2) k

/-- Number of codes emitted before the length group at index k. -/
def cumPre : List Nat → Nat → Nat
  | _, 0 => 0
  | [], _ + 1 => 0
  | b :: rest, k + 1 => b + cumPre rest k

/-- Kraft weight of a histogram suffix: each count at depth i of an
n-entry suffix weighs 2 ^ (n - i); for the full 16-entry histogram this
is 2 ^ 17 times the Kraft sum of bits[L] x 2 ^ (-L) over the code
lengths L = 1..16. -/
def suffKraft : List Nat → Nat
  | [] => 0
  | b :: rest => b * 2 ^ (b :: rest).length + suffKraft rest

/-- Kraft inequality for a 16-entry code-length histogram: the sum of
bits[L] x 2 ^ (16 - L) over L = 1..16 is at most 2 ^ 16, stated with
every weight doubled. -/
def kraftValid (bits : List Nat) : Prop := suffKraft bits ≤ 2 ^ 17

/-- One-code table over the histogram with a single 1-bit code. -/
def bitsOne : List Nat := [1, 0, 0, 0, 0, 0, 0, 0, 0, 0, 0, 0, 0, 0, 0, 0]

/-- Table built by create_in_pool from bitsOne and the symbol 42. -/
def tableOne : HTable := ⟨bitsOne, [0], [42], 1⟩

/-- Overfull histogram (Kraft sum 2/2 + 1/4 > 1): two 1-bit codes and one
2-bit code.  create_in_pool accepts it. -/
def bitsOver : List Nat := [2, 1, 0, 0, 0, 0, 0, 0, 0, 0, 0, 0, 0, 0, 0, 0]

/-- Table built by create_in_pool from bitsOver: the 2-bit slot holds the
out-of-range code value 4, whose lookup-table span wraps onto index 0. -/
def tableOver : HTable := ⟨bitsOver, [0, 1, 4], [10, 20, 30], 3⟩

/-- Histogram whose canonical construction wraps the u16 code register:
two 1-bit codes, then fourteen empty lengths double the register up to
2 ^ 16, so the single 16-bit code is emitted as 0 again. -/
def bitsWrap : List Nat := [2, 0, 0, 0, 0, 0, 0, 0, 0, 0, 0, 0, 0, 0, 0, 1]

/-- Table built by create_in_pool from bitsWrap: its code array is
[0, 1, 0], with the value 0 emitted twice. -/
def tableWrap : HTable := ⟨bitsWrap, [0, 1, 0], [10, 20, 30], 3⟩

/-- Grayscale decoder geometry with raw width 9: at scale 3 the clipped
second MCU column shrinks to zero output pixels. -/
def gray9 : JpegDecoder :=
  { JpegDecoder.new with width := 9, height := 8, numComponents := 1, sampling := .yuv444 }

/-- Facts about a Huffman table built by create_in_pool from a histogram
that satisfies the Kraft inequality, with byte-valued symbols.  The
code array is stated in its exact-arithmetic canonical form, which
buildCodes attains under the Kraft hypothesis. -/
structure GoodTable (bits values : List Nat) (t : HTable) : Prop where
  hlen : bits.length = 16
  hcodes : t.codes = natBuild bits 0
  hbits : t.bits = bits
  hdata : t.data = values
  hnum : t.numCodes = bits.sum
  hvals : values.length = bits.sum
  hbytes : ∀ v ∈ values, v < 256
  hkraft : kraftValid bits

/-- Some code of zero-based length index k matches the top k + 1 bits of
the window (w, wbit). -/
def FoundAt (bits : List Nat) (w wbit k : Nat) : Prop :=
  ∃ j, j < bits.getD k 0 ∧ natStS bits 0 k + j = w / 2 ^ (wbit - (k + 1))

/-- One destuffed-byte emission of the register fill loop shared by
decode_fastdecode1 and decode_fastdecode2 (src/huffman.rs lines
230-265), collapsing the escape round and its companion round into one
step: after a pending marker the loop pads 0xFF without consuming
input; a 0xFF byte consumes its companion, emits 0xFF and records the
companion as the marker when it is non-zero. -/
def destuff1 (data : List Nat) (pos : Nat) (marker : Option Nat) :
    Option (Nat × Nat × Option Nat) :=
  match marker with
  | some _ => some (255, pos, marker)
  | none =>
    if pos < data.length then
      let b := data.getD pos 0 % 256
      if b = 255 then
        if pos + 1 < data.length then
          let c := data.getD (pos + 1) 0 % 256
          some (255, pos + 2, if c ≠ 0 then some c else none)
        else none
      else some (b, pos + 1, none)
    else none

/-- One destuffed-byte pull of BitStream::read_bit_level0 (src/huffman.rs
lines 421-449): the same escape handling, except that the whole pull
requires an input byte, and after a pending marker it consumes that
byte while emitting the 0xFF padding. -/
def destuff0 (data : List Nat) (pos : Nat) (marker : Option Nat) :
    Option (Nat × Nat × Option Nat) :=
  if pos < data.length then
    match marker with
    | some _ => some (255, pos + 1, marker)
    | none =>
      let b := data.getD pos 0 % 256
      if b = 255 then
        if pos + 1 < data.length then
          let c := data.getD (pos + 1) 0 % 256
          some (255, pos + 2, if c ≠ 0 then some c else none)
        else none
      else some (b, pos + 1, none)
  else none

/-- Cursor correspondence between the level-0 reader and the fill loop of
the higher tiers: the pending markers agree, and while no marker is
pending the positions agree (after a marker the level-0 reader keeps
consuming bytes while the fill loop pads without consuming, so only the
marker states stay linked). -/
def SyncR (p q : Nat × Option Nat) : Prop :=
  p.2 = q.2 ∧ (q.2 = none → p.1 = q.1)

/-- State of the level-0 bit reader after k of the 16 window bits have
been consumed, relative to the two destuffed bytes b0 and b1 of the
fill loop and the cursor milestones pa (before the first byte), pb
(after it) and pc (after the second): the mask walks 128, 64, ..., 1
through each byte and rests at 0 before each refill. -/
def Phase (b0 b1 : Nat) (pa pb pc : Nat × Option Nat) (k : Nat) (s : BitStream) : Prop :=
  (k % 8 = 0 → s.bitMask = 0) ∧
  (k % 8 ≠ 0 → s.bitMask = 2 ^ (7 - k % 8) ∧
    s.bitBuffer % 256 = (if k < 8 then b0 else b1)) ∧
  SyncR (s.pos, s.markerFound) (if k = 0 then pa else if k ≤ 8 then pb else pc)

theorem roundSqrt_32768_sq_mul_two : roundSqrt (2 * 4096 ^ 2) = 5793 := by
  have h : Nat.sqrt (4 * (2 * 4096 ^ 2)) = 11585 := by
    symm
    rw [Nat.eq_sqrt]
    norm_num
  rw [roundSqrt, h]

/-- C2 counterexample: the claim states M13 = round(sqrt(2) x 4096), but
the source truncates 1.41421 x 4096 = 5792.60416 to 5792 while the
rounded value of sqrt(2) x 4096 = 5792.6188 is 5793. -/
theorem C2_counterexample :
    M13 = 5792 ∧ roundSqrt (2 * 4096 ^ 2) = 5793 ∧
    M13 ≠ (roundSqrt (2 * 4096 ^ 2) : Int) := by
  refine ⟨by decide, roundSqrt_32768_sq_mul_two, ?_⟩
  rw [roundSqrt_32768_sq_mul_two]
  decide

/-- C2 (amended): M13 is the truncation 5792 of 1.41421 x 4096, one less
than the rounded product round(sqrt(2) x 4096) = 5793 stated by the
spec; M2, M4 and M5 do equal the rounded products stated by the spec. -/
theorem C2_idct_constants :
    M13 = 5792 ∧ M13 + 1 = (roundSqrt (2 * 4096 ^ 2) : Int) ∧
    M2 = (roundScaled 108239 4096 100000 : Int) ∧
    M4 = (roundScaled 261313 4096 100000 : Int) ∧
    M5 = (roundScaled 184776 4096 100000 : Int) := by
  rw [roundSqrt_32768_sq_mul_two]
  refine ⟨by decide, by decide, by decide, by decide, by decide⟩

/-- C3 counterexample: the claim states CR_TO_R = round(1.402 x 1024) and
CB_TO_B = round(1.772 x 1024), but the source truncates 1435.648 to 1435
and 1814.528 to 1814 while the rounded values are 1436 and 1815. -/
theorem C3_counterexample :
    CR_TO_R = 1435 ∧ (roundScaled 1402 1024 1000 : Int) = 1436 ∧
    CR_TO_R ≠ (roundScaled 1402 1024 1000 : Int) ∧
    CB_TO_B = 1814 ∧ (roundScaled 1772 1024 1000 : Int) = 1815 ∧
    CB_TO_B ≠ (roundScaled 1772 1024 1000 : Int) := by decide

/-- C3 (amended): CVACC = 1024; CB_TO_G and CR_TO_G equal the rounded
products stated by the spec, while CR_TO_R and CB_TO_B are the
truncations 1435 and 1814, each one less than the rounded product the
spec states. -/
theorem C3_color_constants :
    CVACC = 1024 ∧
    CR_TO_R + 1 = (roundScaled 1402 1024 1000 : Int) ∧
    CB_TO_G = (roundScaled 344 1024 1000 : Int) ∧
    CR_TO_G = (roundScaled 714 1024 1000 : Int) ∧
    CB_TO_B + 1 = (roundScaled 1772 1024 1000 : Int) := by decide

theorem except_eq_ok_of_toOption {ε α : Type} {e : Except ε α} {x : α}
    (h : e.toOption = some x) : e = .ok x := by
  cases e with
  | ok a => simp only [Except.toOption, Option.some.injEq] at h; rw [h]
  | error b => exact absurd h (by simp [Except.toOption])

set_option maxRecDepth 100000 in
theorem prepare_grayJpeg :
    prepare grayJpeg (MemoryPool.new 10000) = .ok (grayPrepared, ⟨10000, 400⟩) :=
  except_eq_ok_of_toOption (by decide)

/-- C6 counterexample: prepare succeeds on a grayscale (1-component) file
with MCU block dimensions H = V = 1, yet work_buffer_size() returns
1 x 8 x 1 x 8 x 3 = 192 and not the H x 8 x V x 8 = 64 bytes the claim
states for grayscale images: the source multiplies by 3 regardless of
the component count. -/
theorem C6_counterexample :
    prepare grayJpeg (MemoryPool.new 10000) = .ok (grayPrepared, ⟨10000, 400⟩) ∧
    grayPrepared.numComponents = 1 ∧
    grayPrepared.sampling.mcuWidth = 1 ∧ grayPrepared.sampling.mcuHeight = 1 ∧
    grayPrepared.workBufferSize = 192 ∧ grayPrepared.workBufferSize ≠ 8 * 8 := by
  exact ⟨prepare_grayJpeg, by decide, by decide, by decide, by decide, by decide⟩

/-- C6 (amended): after a successful prepare, work_buffer_size() returns
H x 8 x V x 8 x 3 bytes for every image, both when the image has 3
components and also when it has 1 component (the source never special
cases grayscale). -/
theorem C6_work_buffer_size (data : List Nat) (pool : MemoryPool)
    (st : JpegDecoder) (pool2 : MemoryPool)
    (h : prepare data pool = .ok (st, pool2)) :
    (st.numComponents = 3 →
      st.workBufferSize = st.sampling.mcuWidth * 8 * (st.sampling.mcuHeight * 8) * 3) ∧
    (st.numComponents = 1 →
      st.workBufferSize = st.sampling.mcuWidth * 8 * (st.sampling.mcuHeight * 8) * 3) := by
  constructor <;> intro _ <;> · simp only [JpegDecoder.workBufferSize]; ring

/-- C6 witness: the amended statement applied to the concrete grayscale
stream above. -/
theorem C6_work_buffer_size_witness :
    (grayPrepared.numComponents = 3 →
      grayPrepared.workBufferSize =
        grayPrepared.sampling.mcuWidth * 8 * (grayPrepared.sampling.mcuHeight * 8) * 3) ∧
    (grayPrepared.numComponents = 1 →
      grayPrepared.workBufferSize =
        grayPrepared.sampling.mcuWidth * 8 * (grayPrepared.sampling.mcuHeight * 8) * 3) :=
  C6_work_buffer_size grayJpeg (MemoryPool.new 10000) grayPrepared ⟨10000, 400⟩
    prepare_grayJpeg

/-- C4 counterexample: at len = 16, v = 0 the claim demands
extend(0, 16) = 0 - ((1 << 16) - 1) = -65535, but the source computes
vt = 1i16 << 15 = -32768, the branch condition v as i16 < vt never
holds, and extend(0, 16) = 0. -/
theorem C4_counterexample :
    extend 0 16 = 0 ∧ (0 : Int) - (2 ^ 16 - 1) = -65535 ∧
    extend 0 16 ≠ (0 : Int) - (2 ^ 16 - 1) := by decide

/-- C4 (amended): for 1 <= len <= 15 and v < 2 ^ len the sign extension
satisfies the claimed formula
extend(v, len) = if v < 2 ^ (len-1) then v - ((1 << len) - 1) else v,
and it is total; but for len = 16 the branch is unreachable (vt
overflows to -32768 in i16) and extend(v, 16) is the plain signed
reinterpretation of the 16-bit value v. -/
theorem C4_extend_formula (t v : Nat) (h1 : 1 ≤ t) (h2 : t ≤ 16) (hv : v < 2 ^ t) :
    (t ≤ 15 → extend v t = if v < 2 ^ (t - 1) then (v : Int) - (2 ^ t - 1) else (v : Int)) ∧
    (t = 16 → extend v t = toI16 v) := by
  constructor
  · intro ht
    interval_cases t <;>
      · simp only [extend, toI16, wrap16]
        norm_num
        split_ifs <;> omega
  · intro ht
    subst ht
    simp only [extend, toI16, wrap16]
    norm_num
    split_ifs <;> omega

/-- C4 witness: the amended formula evaluated at len = 11, v = 3. -/
theorem C4_extend_formula_witness :
    (11 ≤ 15 → extend 3 11 = if 3 < 2 ^ (11 - 1) then (3 : Int) - (2 ^ 11 - 1) else (3 : Int)) ∧
    (11 = 16 → extend 3 11 = toI16 3) :=
  C4_extend_formula 11 3 (by decide) (by decide) (by decide)

/-- C5: the arithmetic variant of byte_clip is exactly the claimed clamp,
but the table variant disagrees with the clamp inside the claimed range:
at v = -10 the masked index is 1014 and CLIP_TABLE maps indices
768..1023 to i - 768 instead of 0, giving 246.  This contradicts the
crate's own test test_byte_clip, which asserts byte_clip(-10) = 0. -/
theorem C5_byte_clip_table_bug :
    (∀ v : Int, byteClipArith v = clamp255 v) ∧
    byteClipTable (-10) = 246 ∧ clamp255 (-10) = 0 ∧
    byteClipTable (-10) ≠ clamp255 (-10) := by
  refine ⟨fun v => rfl, by decide, by decide, by decide⟩

/-- C8 counterexample: reset is a MemoryPool operation and sets used back
to zero, so used is not non-decreasing across every operation sequence:
after alloc(1) the trace of used values is 0, 8, 0. -/
theorem C8_counterexample :
    usedTrace 16 [PoolOp.alloc 1, PoolOp.reset] = [0, 8, 0] ∧
    ¬ List.Chain' (· ≤ ·) (usedTrace 16 [PoolOp.alloc 1, PoolOp.reset]) := by
  have h : usedTrace 16 [PoolOp.alloc 1, PoolOp.reset] = [0, 8, 0] := by rfl
  refine ⟨h, ?_⟩
  rw [h]
  intro hch
  rw [List.chain'_cons, List.chain'_cons] at hch
  omega

theorem poolInv_new (cap : Nat) : PoolInv (MemoryPool.new cap) := by
  constructor <;> simp [MemoryPool.new]

theorem align8_eq_self {x : Nat} (h : x % 8 = 0) : align8 x = x := by
  unfold align8; omega

theorem poolInv_apply (op : PoolOp) (p : MemoryPool) (h : PoolInv p) :
    PoolInv (op.apply p) := by
  obtain ⟨h8, hle⟩ := h
  cases op with
  | alloc n =>
    simp only [PoolOp.apply, MemoryPool.alloc, MemoryPool.allocAligned8]
    split
    · next heq =>
      split at heq
      · exact absurd heq (by simp)
      · cases heq
        constructor
        · simp only [align8]; omega
        · simp only [align8] at *; omega
    · exact ⟨h8, hle⟩
  | reset => exact ⟨by simp [PoolOp.apply, MemoryPool.reset], by simp [PoolOp.apply, MemoryPool.reset]⟩

theorem poolInv_after (cap : Nat) (ops : List PoolOp) : PoolInv (poolAfter cap ops) := by
  suffices h : ∀ (l : List PoolOp) (p : MemoryPool), PoolInv p →
      PoolInv (l.foldl (fun q op => op.apply q) p) by
    exact h ops _ (poolInv_new cap)
  intro l
  induction l with
  | nil => intro p hp; exact hp
  | cons op rest ih => intro p hp; exact ih _ (poolInv_apply op p hp)

/-- C8 (amended): in every pool state reachable by a sequence of
operations from a fresh pool, used() stays bounded by capacity(); an
alloc call never decreases used() (only reset does, setting it to
zero); and alloc(n) returns None exactly when remaining() < align8(n). -/
theorem C8_pool_allocator (cap : Nat) (ops : List PoolOp) :
    (poolAfter cap ops).used ≤ (poolAfter cap ops).capacity ∧
    (∀ n, (poolAfter cap ops).used ≤ ((PoolOp.alloc n).apply (poolAfter cap ops)).used) ∧
    ((PoolOp.reset.apply (poolAfter cap ops)).used = 0) ∧
    (∀ n, (poolAfter cap ops).alloc n = none ↔
      (poolAfter cap ops).remaining < align8 n) := by
  obtain ⟨h8, hle⟩ := poolInv_after cap ops
  refine ⟨hle, ?_, rfl, ?_⟩
  · intro n
    simp only [PoolOp.apply, MemoryPool.alloc, MemoryPool.allocAligned8]
    split
    · next heq =>
      split at heq
      · exact absurd heq (by simp)
      · cases heq
        simp only [MemoryPool.used, align8]
        omega
    · exact le_refl _
  · intro n
    simp only [MemoryPool.alloc, MemoryPool.allocAligned8, MemoryPool.remaining]
    rw [align8_eq_self h8]
    split_ifs with hcond
    · simp [hcond]
    · simp [hcond]

theorem outputMcu_spec (d : JpegDecoder) (buf : List Int) (x y : Nat)
    (cb : List Nat → Rect → Except Err Bool) :
    outputMcu d buf x y cb = (.ok (), none) ∨
    ∃ pix r,
      (outputMcu d buf x y cb = (.ok (), some (pix, r)) ∧ cb pix r = .ok true) ∨
      (outputMcu d buf x y cb = (.error .Interrupted, some (pix, r)) ∧ cb pix r = .ok false) ∨
      (∃ e, outputMcu d buf x y cb = (.error e, some (pix, r)) ∧ cb pix r = .error e) := by
  simp only [outputMcu]
  split_ifs with hzero
  · left; rfl
  all_goals
    right
    split
    · next e heq => exact ⟨_, _, Or.inr (Or.inr ⟨e, rfl, heq⟩)⟩
    · next heq => exact ⟨_, _, Or.inr (Or.inl ⟨rfl, heq⟩)⟩
    · next heq => exact ⟨_, _, Or.inl ⟨rfl, heq⟩⟩

theorem getLast?_cons_of_ne_nil {α : Type} (a : α) {l : List α} (h : l ≠ []) :
    (a :: l).getLast? = l.getLast? := by
  cases l with
  | nil => exact absurd rfl h
  | cons b t => rw [List.getLast?_cons_cons]

theorem runMcus_sink_stop {σ : Type} (d : JpegDecoder)
    (step : σ → Except Err (σ × List Int)) (cb : List Nat → Rect → Except Err Bool) :
    ∀ (coords : List (Nat × Nat)) (s : σ) (pix : List Nat) (r : Rect),
      (pix, r) ∈ (runMcus d step cb coords s).2 → cb pix r = .ok false →
      (runMcus d step cb coords s).1 = .error .Interrupted ∧
      (runMcus d step cb coords s).2.getLast? = some (pix, r) := by
  intro coords
  induction coords with
  | nil => intro s pix r hmem; exact absurd hmem (by simp [runMcus])
  | cons c rest ih =>
    intro s pix r hmem hfalse
    obtain ⟨x, y⟩ := c
    rcases hstep : step s with e | s1buf
    · simp only [runMcus, hstep] at hmem
      exact absurd hmem (by simp)
    · obtain ⟨s1, buf⟩ := s1buf
      rcases outputMcu_spec d buf x y cb with hout | ⟨pix2, r2, hcase⟩
      · simp only [runMcus, hstep, hout, Option.toList, List.nil_append] at hmem ⊢
        exact ih s1 pix r hmem hfalse
      · rcases hcase with ⟨hout, hcb⟩ | ⟨hout, hcb⟩ | ⟨e, hout, hcb⟩
        · simp only [runMcus, hstep, hout, Option.toList, List.singleton_append] at hmem ⊢
          rcases List.mem_cons.mp hmem with heq | hmem2
          · have h1 : pix = pix2 := congrArg Prod.fst heq
            have h2 : r = r2 := congrArg Prod.snd heq
            rw [h1, h2] at hfalse
            rw [hfalse] at hcb
            exact absurd hcb (by simp)
          · obtain ⟨hres, hlast⟩ := ih s1 pix r hmem2 hfalse
            refine ⟨hres, ?_⟩
            rw [getLast?_cons_of_ne_nil _ (by intro hnil; rw [hnil] at hlast; simp at hlast)]
            exact hlast
        · simp only [runMcus, hstep, hout, Option.toList] at hmem ⊢
          rcases List.mem_cons.mp hmem with heq | hmem2
          · have h1 : pix = pix2 := congrArg Prod.fst heq
            have h2 : r = r2 := congrArg Prod.snd heq
            subst h1; subst h2
            exact ⟨by trivial, by trivial⟩
          · exact absurd hmem2 (by simp)
        · simp only [runMcus, hstep, hout, Option.toList] at hmem ⊢
          rcases List.mem_cons.mp hmem with heq | hmem2
          · have h1 : pix = pix2 := congrArg Prod.fst heq
            have h2 : r = r2 := congrArg Prod.snd heq
            rw [h1, h2] at hfalse
            rw [hfalse] at hcb
            exact absurd hcb (by simp)
          · exact absurd hmem2 (by simp)

/-- C9: if during decompress the sink returns the stop indication
Ok(false) on some MCU it was invoked for, then decompress returns the
Interrupted error and that invocation is the last one: the sink is not
invoked again for any later MCU. -/
theorem C9_sink_stop {σ : Type} (d : JpegDecoder) (scale mcuLen workLen : Nat)
    (step : σ → Except Err (σ × List Int)) (cb : List Nat → Rect → Except Err Bool)
    (s0 : σ) (pix : List Nat) (r : Rect)
    (hmem : (pix, r) ∈ (decompressWith d scale mcuLen workLen step cb s0).2)
    (hfalse : cb pix r = .ok false) :
    (decompressWith d scale mcuLen workLen step cb s0).1 = .error .Interrupted ∧
    (decompressWith d scale mcuLen workLen step cb s0).2.getLast? = some (pix, r) := by
  unfold decompressWith at hmem ⊢
  split_ifs at hmem ⊢ with h1 h2 h3
  · exact absurd hmem (by simp)
  · exact absurd hmem (by simp)
  · exact absurd hmem (by simp)
  · exact runMcus_sink_stop _ step cb _ s0 pix r hmem hfalse

/-- C9 witness: a sink that stops on the first MCU of the 8 x 8 grayscale
image receives no further invocations and decompress is Interrupted. -/
theorem C9_sink_stop_witness :
    (decompressWith gray8 0 192 192 (fun s : Unit => .ok (s, List.replicate 192 0))
        (fun _ _ => .ok false) ()).1 = .error .Interrupted ∧
    (decompressWith gray8 0 192 192 (fun s : Unit => .ok (s, List.replicate 192 0))
        (fun _ _ => .ok false) ()).2.getLast? =
      some (List.replicate 64 0, ⟨0, 7, 0, 7⟩) :=
  C9_sink_stop gray8 0 192 192 (fun s : Unit => .ok (s, List.replicate 192 0))
    (fun _ _ => .ok false) () (List.replicate 64 0) ⟨0, 7, 0, 7⟩
    (by decide) rfl

/-- C1 counterexample: the tiers do not always return identical symbols.
On the one-byte input 0x00, tier 0 decodes the 1-bit code and returns
42 while tier 1 fails with the Input error (it insists on 16 buffered
bits); and on the table built from the overfull histogram bitsOver,
tiers 1 and 2 both succeed on the input 0x00 0x00 but return different
symbols, because the wrapped lookup-table span of the 2-bit code
overwrote the entries of the first 1-bit code. -/
theorem C1_counterexample :
    (createInPool (MemoryPool.new 100) bitsOne [42]).toOption.map (·.1) = some tableOne ∧
    (decode0 tableOne (BitStream.new [0])).map (·.1) = .ok 42 ∧
    decode1 tableOne (BitStream.new [0]) = .error .InputErr ∧
    (createInPool (MemoryPool.new 100) bitsOver [10, 20, 30]).toOption.map (·.1) =
      some tableOver ∧
    (decode1 tableOver (BitStream.new [0, 0])).map (·.1) = .ok 10 ∧
    (decode2 tableOver (buildLut tableOver).1 (buildLut tableOver).2
      (BitStream.new [0, 0])).map (·.1) = .ok 30 := by
  refine ⟨by decide, by decide, by decide, by decide, by decide, by decide⟩

/-- C7 counterexample: create_in_pool accepts the histogram bitsWrap
(sum 3 with 3 symbols) and emits the code value 0 both for the first
1-bit code and for the 16-bit code, because the u16 shift of the code
register wraps silently; the emitted codes are not distinct, and they
differ from the exact-arithmetic construction the spec describes, which
emits 2 ^ 15 x 2 = 65536 for the 16-bit code. -/
theorem C7_counterexample :
    (createInPool (MemoryPool.new 100) bitsWrap [10, 20, 30]).toOption.map (·.1) =
      some tableWrap ∧
    ¬ tableWrap.codes.Nodup ∧
    tableWrap.codes ≠ natBuild bitsWrap 0 := by
  refine ⟨by decide, by decide, by decide⟩

/-- C10: an MCU whose clipped extent shrinks to zero pixels at the current
scale is skipped: output_mcu returns Ok(()) without invoking the sink;
consequently, at scale 3 on the 9 x 8 grayscale geometry, decompress
succeeds while invoking the sink once even though the image has two
MCUs. -/
theorem C10_zero_extent_skip :
    (∀ (d : JpegDecoder) (buf : List Int) (x y : Nat)
      (cb : List Nat → Rect → Except Err Bool),
      min (d.sampling.mcuWidth * 8) (d.width - x) / 2 ^ d.scale = 0 ∨
        min (d.sampling.mcuHeight * 8) (d.height - y) / 2 ^ d.scale = 0 →
      outputMcu d buf x y cb = (.ok (), none)) ∧
    (decompressWith gray9 3 192 192 (fun s : Unit => .ok (s, List.replicate 192 0))
        (fun _ _ => .ok true) ()).1 = .ok () ∧
    (decompressWith gray9 3 192 192 (fun s : Unit => .ok (s, List.replicate 192 0))
        (fun _ _ => .ok true) ()).2.length = 1 ∧
    (mcuCoords { gray9 with scale := 3 }).length = 2 := by
  refine ⟨?_, by decide, by decide, by decide⟩
  intro d buf x y cb h
  simp only [outputMcu]
  rw [if_pos h]

/-- C10 witness: the skip statement applied to the second MCU of the 9 x 8
grayscale geometry at scale 3. -/
theorem C10_zero_extent_skip_witness :
    outputMcu { gray9 with scale := 3 } [] 8 0 (fun _ _ => .ok true) = (.ok (), none) :=
  C10_zero_extent_skip.1 { gray9 with scale := 3 } [] 8 0 (fun _ _ => .ok true)
    (by decide)

/-! ## Canonical-code lemmas -/

theorem buildCodes_length (bs : List Nat) (c : Nat) :
    (buildCodes bs c).length = bs.sum := by
  induction bs generalizing c with
  | nil => rfl
  | cons b rest ih => simp [buildCodes, ih]

theorem natBuild_length (bs : List Nat) (c : Nat) :
    (natBuild bs c).length = bs.sum := by
  induction bs generalizing c with
  | nil => rfl
  | cons b rest ih => simp [natBuild, ih]

theorem suffKraft_cons (b : Nat) (rest : List Nat) :
    suffKraft (b :: rest) = b * 2 ^ (rest.length + 1) + suffKraft rest := by
  simp [suffKraft]

theorem buildCodes_eq_natBuild (bs : List Nat) (c : Nat)
    (hb : c * 2 ^ bs.length + suffKraft bs ≤ 2 ^ 17) :
    buildCodes bs (c % 65536) = natBuild bs c := by
  induction bs generalizing c with
  | nil => rfl
  | cons b rest ih =>
    rw [suffKraft_cons] at hb
    simp only [List.length_cons] at hb
    have h0 : (c + b) * 2 ^ (rest.length + 1) =
        c * 2 ^ (rest.length + 1) + b * 2 ^ (rest.length + 1) := by ring
    have hcb : (c + b) * 2 ^ (rest.length + 1) ≤ 2 ^ 17 := by
      rw [h0]; linarith [Nat.zero_le (suffKraft rest)]
    have hpw : (2 : Nat) ≤ 2 ^ (rest.length + 1) := by
      calc (2 : Nat) = 2 ^ 1 := by norm_num
        _ ≤ 2 ^ (rest.length + 1) := Nat.pow_le_pow_right (by norm_num) (by omega)
    have h2 : (c + b) * 2 ≤ (c + b) * 2 ^ (rest.length + 1) :=
      Nat.mul_le_mul_left _ hpw
    have hble : c + b ≤ 2 ^ 16 := by
      have h3 := le_trans h2 hcb
      omega
    simp only [buildCodes, natBuild]
    congr 1
    · apply List.map_congr_left
      intro j hj
      have hjb : j < b := List.mem_range.mp hj
      have hcj : c + j < 65536 := by omega
      rw [Nat.mod_add_mod, Nat.mod_eq_of_lt hcj]
    · have harg : (c % 65536 + b) % 65536 * 2 % 65536 = (c + b) * 2 % 65536 := by
        omega
      rw [harg]
      apply ih
      have h4 : (c + b) * 2 * 2 ^ rest.length = (c + b) * 2 ^ (rest.length + 1) := by ring
      rw [h4, h0]
      linarith [Nat.zero_le (suffKraft rest)]

theorem natStS_succ (bs : List Nat) (c k : Nat) (hk : k < bs.length) :
    natStS bs c (k + 1) = (natStS bs c k + bs.getD k 0) * 2 := by
  induction k generalizing bs c with
  | zero =>
    cases bs with
    | nil => simp at hk
    | cons b rest => simp [natStS]
  | succ k ih =>
    cases bs with
    | nil => simp at hk
    | cons b rest =>
      simp only [natStS, List.getD_cons_succ]
      exact ih rest _ (by simpa using hk)

theorem kraft_propagate (k : Nat) : ∀ (bs : List Nat) (c : Nat),
    c * 2 ^ bs.length + suffKraft bs ≤ 2 ^ 17 → k ≤ bs.length →
    natStS bs c k * 2 ^ (bs.length - k) + suffKraft (bs.drop k) ≤ 2 ^ 17 := by
  induction k with
  | zero => intro bs c hb _; simpa [natStS] using hb
  | succ k ih =>
    intro bs c hb hk
    cases bs with
    | nil => simp at hk
    | cons b rest =>
      simp only [List.length_cons] at hk
      have hb2 : (c + b) * 2 * 2 ^ rest.length + suffKraft rest ≤ 2 ^ 17 := by
        rw [suffKraft_cons] at hb
        simp only [List.length_cons] at hb
        have h4 : (c + b) * 2 * 2 ^ rest.length =
            c * 2 ^ (rest.length + 1) + b * 2 ^ (rest.length + 1) := by ring
        rw [h4]
        linarith
      have := ih rest ((c + b) * 2) hb2 (by omega)
      simpa [natStS, Nat.succ_sub_succ] using this

theorem natStS_add_le (bits : List Nat) (k : Nat) (hlen : bits.length = 16)
    (hkraft : kraftValid bits) (hk : k < 16) :
    natStS bits 0 k + bits.getD k 0 ≤ 2 ^ (k + 1) := by
  have hp := kraft_propagate k bits 0 (by simpa [hlen] using hkraft) (by omega)
  have hdrop : bits.drop k = bits.getD k 0 :: bits.drop (k + 1) := by
    rw [List.drop_eq_getElem_cons (by omega)]
    congr 1
    exact (List.getD_eq_getElem _ _ (by omega)).symm
  rw [hdrop, suffKraft_cons] at hp
  have hlen2 : (bits.drop (k + 1)).length = 16 - (k + 1) := by simp [hlen]
  rw [hlen2] at hp
  have he : 16 - (k + 1) + 1 = 16 - k := by omega
  rw [he, hlen] at hp
  have h1 : (natStS bits 0 k + bits.getD k 0) * 2 ^ (16 - k) ≤ 2 ^ 17 := by
    have h0 : (natStS bits 0 k + bits.getD k 0) * 2 ^ (16 - k) =
        natStS bits 0 k * 2 ^ (16 - k) + bits.getD k 0 * 2 ^ (16 - k) := by ring
    rw [h0]
    linarith [Nat.zero_le (suffKraft (bits.drop (k + 1)))]
  have h2 : (2 : Nat) ^ 17 = 2 ^ (k + 1) * 2 ^ (16 - k) := by
    rw [← pow_add]
    congr 1
    omega
  rw [h2] at h1
  exact Nat.le_of_mul_le_mul_right h1 (by positivity)

theorem natStS_mono (bits : List Nat) (c : Nat) (k : Nat) : ∀ k', k < k' → k' ≤ bits.length →
    (natStS bits c k + bits.getD k 0) * 2 ^ (k' - k) ≤ natStS bits c k' := by
  intro k'
  induction k' with
  | zero => omega
  | succ k' ih =>
    intro h hk'
    rcases Nat.lt_or_ge k k' with hlt | hge
    · have h1 := ih hlt (by omega)
      rw [natStS_succ bits c k' (by omega)]
      have he : k' + 1 - k = k' - k + 1 := by omega
      rw [he, pow_succ, ← mul_assoc]
      have h2 : (natStS bits c k + bits.getD k 0) * 2 ^ (k' - k) * 2 ≤
          natStS bits c k' * 2 := Nat.mul_le_mul_right _ h1
      exact le_trans h2 (by omega)
    · have hkeq : k = k' := by omega
      subst hkeq
      rw [natStS_succ bits c k (by omega)]
      have he : k + 1 - k = 1 := by omega
      rw [he, pow_one]

theorem natBuild_lower (bs : List Nat) (c : Nat) : ∀ x ∈ natBuild bs c, c ≤ x := by
  induction bs generalizing c with
  | nil => intro x hx; simp [natBuild] at hx
  | cons b rest ih =>
    intro x hx
    simp only [natBuild, List.mem_append, List.mem_map, List.mem_range] at hx
    rcases hx with ⟨j, _, rfl⟩ | hx
    · omega
    · have := ih ((c + b) * 2) x hx
      omega

theorem natBuild_pairwise (bs : List Nat) (c : Nat) :
    List.Pairwise (· < ·) (natBuild bs c) := by
  induction bs generalizing c with
  | nil => simp [natBuild]
  | cons b rest ih =>
    simp only [natBuild]
    rw [List.pairwise_append]
    refine ⟨?_, ih _, ?_⟩
    · exact (List.pairwise_lt_range b).map _ (fun a b' hab => by omega)
    · intro a ha x hx
      simp only [List.mem_map, List.mem_range] at ha
      obtain ⟨j, hj, rfl⟩ := ha
      have hge := natBuild_lower rest ((c + b) * 2) x hx
      omega

theorem natBuild_nodup (bs : List Nat) (c : Nat) : (natBuild bs c).Nodup :=
  (natBuild_pairwise bs c).imp (fun h => Nat.ne_of_lt h)

theorem natBuild_getD (k : Nat) : ∀ (bs : List Nat) (c j : Nat), k < bs.length →
    j < bs.getD k 0 →
    (natBuild bs c).getD (cumPre bs k + j) 0 = natStS bs c k + j := by
  induction k with
  | zero =>
    intro bs c j hk hj
    cases bs with
    | nil => simp at hk
    | cons b rest =>
      simp only [List.getD_cons_zero] at hj
      simp only [cumPre, natStS, natBuild, Nat.zero_add]
      rw [List.getD_append _ _ _ _ (by simpa using hj)]
      rw [List.getD_eq_getElem _ _ (by simpa using hj)]
      simp
  | succ k ih =>
    intro bs c j hk hj
    cases bs with
    | nil => simp at hk
    | cons b rest =>
      simp only [List.getD_cons_succ] at hj
      simp only [cumPre, natStS, natBuild]
      rw [add_assoc]
      rw [List.getD_append_right _ _ _ _ (by simp)]
      simp only [List.length_map, List.length_range, Nat.add_sub_cancel_left]
      exact ih rest ((c + b) * 2) j (by simpa using hk) hj

theorem cumPre_succ (k : Nat) : ∀ (bs : List Nat), k < bs.length →
    cumPre bs (k + 1) = cumPre bs k + bs.getD k 0 := by
  induction k with
  | zero =>
    intro bs hk
    cases bs with
    | nil => simp at hk
    | cons b rest => simp [cumPre]
  | succ k ih =>
    intro bs hk
    cases bs with
    | nil => simp at hk
    | cons b rest =>
      simp only [cumPre, List.getD_cons_succ]
      rw [ih rest (by simpa using hk)]
      omega

theorem cumPre_add_lt_sum (k : Nat) : ∀ (bs : List Nat) (j : Nat), k < bs.length →
    j < bs.getD k 0 → cumPre bs k + j < bs.sum := by
  induction k with
  | zero =>
    intro bs j hk hj
    cases bs with
    | nil => simp at hk
    | cons b rest =>
      simp only [List.getD_cons_zero] at hj
      simp only [cumPre, List.sum_cons]
      omega
  | succ k ih =>
    intro bs j hk hj
    cases bs with
    | nil => simp at hk
    | cons b rest =>
      simp only [List.getD_cons_succ] at hj
      simp only [cumPre, List.sum_cons]
      have := ih rest j (by simpa using hk) hj
      omega

theorem createInPool_ok {pool : MemoryPool} {bits values : List Nat} {t : HTable}
    {pool2 : MemoryPool} (h : createInPool pool bits values = .ok (t, pool2)) :
    bits.length = 16 ∧ values.length = bits.sum ∧
    t = ⟨bits, buildCodes bits 0, values, bits.sum⟩ := by
  unfold createInPool at h
  split_ifs at h with h1 h2
  split at h
  · exact absurd h (by simp)
  · split at h
    · exact absurd h (by simp)
    · refine ⟨by omega, by omega, ?_⟩
      have := Except.ok.inj h
      exact (congrArg Prod.fst this).symm

/-- C7 (amended): for every table built by create_in_pool, the code array
has one code per histogram entry; and provided the histogram satisfies
the Kraft inequality (sum of bits[L] x 2 ^ (16 - L) over L = 1..16 at
most 2 ^ 16), the emitted codes follow the spec construction in exact
integer arithmetic, the j-th code of zero-based length index k is the
evolved start code plus j, and all emitted codes are distinct.  Without
the Kraft hypothesis the u16 code register can wrap and re-emit an
earlier value, as the counterexample shows. -/
theorem C7_canonical_codes (pool : MemoryPool) (bits values : List Nat) (t : HTable)
    (pool2 : MemoryPool) (h : createInPool pool bits values = .ok (t, pool2)) :
    t.codes.length = bits.sum ∧
    (kraftValid bits →
      t.codes = natBuild bits 0 ∧
      (∀ k, k < 16 → ∀ j, j < bits.getD k 0 →
        t.codes.getD (cumPre bits k + j) 0 = natStS bits 0 k + j) ∧
      t.codes.Nodup) := by
  obtain ⟨hlen, hvals, ht⟩ := createInPool_ok h
  subst ht
  refine ⟨buildCodes_length bits 0, fun hkraft => ?_⟩
  have heq : buildCodes bits 0 = natBuild bits 0 := by
    have h0 := buildCodes_eq_natBuild bits 0 (by simpa [hlen] using hkraft)
    simpa using h0
  simp only [heq]
  refine ⟨trivial, ?_, natBuild_nodup bits 0⟩
  intro k hk j hj
  exact natBuild_getD k bits 0 j (by omega) hj

/-- C7 witness: the amended statement evaluated on the one-code table. -/
theorem C7_canonical_codes_witness :
    tableOne.codes.length = bitsOne.sum ∧
    (kraftValid bitsOne →
      tableOne.codes = natBuild bitsOne 0 ∧
      (∀ k, k < 16 → ∀ j, j < bitsOne.getD k 0 →
        tableOne.codes.getD (cumPre bitsOne k + j) 0 = natStS bitsOne 0 k + j) ∧
      tableOne.codes.Nodup) :=
  C7_canonical_codes (MemoryPool.new 100) bitsOne [42] tableOne ⟨100, 16⟩ (by decide)

/-! ## Window and scan lemmas for the decode tiers -/

theorem goodTable_of_create {pool : MemoryPool} {bits values : List Nat} {t : HTable}
    {pool2 : MemoryPool} (h : createInPool pool bits values = .ok (t, pool2))
    (hbytes : ∀ v ∈ values, v < 256) (hkraft : kraftValid bits) :
    GoodTable bits values t := by
  obtain ⟨hlen, hvals, ht⟩ := createInPool_ok h
  subst ht
  refine ⟨hlen, ?_, rfl, rfl, rfl, hvals, hbytes, hkraft⟩
  have h0 := buildCodes_eq_natBuild bits 0 (by simpa [hlen] using hkraft)
  simpa using h0

theorem top_lt {w wbit bl : Nat} (hw : w < 2 ^ wbit) (hbl : bl ≤ wbit) :
    w / 2 ^ (wbit - bl) < 2 ^ bl := by
  apply Nat.div_lt_of_lt_mul
  calc w < 2 ^ wbit := hw
    _ = 2 ^ (wbit - bl) * 2 ^ bl := by rw [← pow_add]; congr 1; omega

theorem top_top {w wbit bl bl2 : Nat} (h1 : bl ≤ bl2) (h2 : bl2 ≤ wbit) :
    w / 2 ^ (wbit - bl2) / 2 ^ (bl2 - bl) = w / 2 ^ (wbit - bl) := by
  rw [Nat.div_div_eq_div_mul, ← pow_add]
  congr 2
  omega

theorem codeVal_lt {bits : List Nat} (hlen : bits.length = 16) (hkraft : kraftValid bits)
    {k j : Nat} (hk : k < 16) (hj : j < bits.getD k 0) :
    natStS bits 0 k + j < 2 ^ (k + 1) := by
  have := natStS_add_le bits k hlen hkraft hk
  omega

theorem foundAt_unique {bits : List Nat} (hlen : bits.length = 16)
    (hkraft : kraftValid bits) {w wbit k k2 : Nat} (hk : k < k2) (hk2 : k2 < 16)
    (hwbit : k2 + 1 ≤ wbit)
    (hf : FoundAt bits w wbit k) (hf2 : FoundAt bits w wbit k2) : False := by
  obtain ⟨j, hj, hje⟩ := hf
  obtain ⟨j2, hj2, hj2e⟩ := hf2
  have hpre : w / 2 ^ (wbit - (k2 + 1)) / 2 ^ ((k2 + 1) - (k + 1)) =
      w / 2 ^ (wbit - (k + 1)) := top_top (by omega) hwbit
  have h3 : (k2 + 1) - (k + 1) = k2 - k := by omega
  rw [h3, ← hj2e, ← hje] at hpre
  have hm2pos : 0 < 2 ^ (k2 - k) := Nat.pos_pow_of_pos _ (by norm_num)
  have hlt : natStS bits 0 k2 + j2 < (natStS bits 0 k + j + 1) * 2 ^ (k2 - k) := by
    have hdm := Nat.div_add_mod (natStS bits 0 k2 + j2) (2 ^ (k2 - k))
    have hmod := Nat.mod_lt (natStS bits 0 k2 + j2) hm2pos
    calc natStS bits 0 k2 + j2
        = 2 ^ (k2 - k) * ((natStS bits 0 k2 + j2) / 2 ^ (k2 - k)) +
          (natStS bits 0 k2 + j2) % 2 ^ (k2 - k) := hdm.symm
      _ < 2 ^ (k2 - k) * ((natStS bits 0 k2 + j2) / 2 ^ (k2 - k)) + 2 ^ (k2 - k) := by
          omega
      _ = ((natStS bits 0 k2 + j2) / 2 ^ (k2 - k) + 1) * 2 ^ (k2 - k) := by ring
      _ = (natStS bits 0 k + j + 1) * 2 ^ (k2 - k) := by rw [hpre]
  have hmono := natStS_mono bits 0 k k2 hk (by omega)
  have hcb : natStS bits 0 k + j + 1 ≤ natStS bits 0 k + bits.getD k 0 := by omega
  have hge : (natStS bits 0 k + j + 1) * 2 ^ (k2 - k) ≤ natStS bits 0 k2 :=
    le_trans (Nat.mul_le_mul_right _ hcb) hmono
  linarith

theorem scanBlock_none (codes dataArr : List Nat) (num d : Nat) :
    ∀ cnt idx, (∀ i, i < cnt → ¬(idx + i < num ∧ codes.getD (idx + i) 0 = d)) →
    scanBlock codes dataArr num d idx cnt = none := by
  intro cnt
  induction cnt with
  | zero => intro idx _; rfl
  | succ cnt ih =>
    intro idx hno
    simp only [scanBlock]
    rw [if_neg ?_]
    · apply ih
      intro i hi hcon
      have he : idx + 1 + i = idx + (i + 1) := by omega
      rw [he] at hcon
      exact hno (i + 1) (by omega) hcon
    · have := hno 0 (by omega)
      simpa using this

theorem scanBlock_found (codes dataArr : List Nat) (num d : Nat) :
    ∀ cnt idx j, j < cnt → idx + j < num → codes.getD (idx + j) 0 = d →
    (∀ i, i < j → codes.getD (idx + i) 0 ≠ d) →
    scanBlock codes dataArr num d idx cnt = some (dataArr.getD (idx + j) 0) := by
  intro cnt
  induction cnt with
  | zero => intro idx j hj; omega
  | succ cnt ih =>
    intro idx j hj hnum heq hmin
    cases j with
    | zero =>
      simp only [scanBlock]
      rw [if_pos ⟨by simpa using hnum, by simpa using heq⟩]
      simp
    | succ j =>
      have he : ∀ x : Nat, idx + 1 + x = idx + (x + 1) := fun x => by omega
      simp only [scanBlock]
      rw [if_neg ?_]
      · have := ih (idx + 1) j (by omega) (by rw [he j]; exact hnum)
          (by rw [he j]; exact heq)
          (fun i hi => by rw [he i]; exact hmin (i + 1) (by omega))
        rw [this, he j]
      · rintro ⟨_, hc⟩
        exact hmin 0 (by omega) (by simpa using hc)

theorem goodTable_codes_getD {bits values : List Nat} {t : HTable}
    (hg : GoodTable bits values t) {k j : Nat} (hk : k < 16) (hj : j < bits.getD k 0) :
    t.codes.getD (cumPre bits k + j) 0 = natStS bits 0 k + j := by
  rw [hg.hcodes]
  exact natBuild_getD k bits 0 j (by rw [hg.hlen]; omega) hj

theorem top_mod_eq {w wbit k : Nat} (hw : w < 2 ^ wbit) (hk : k < 16)
    (hwbit : 16 ≤ wbit) :
    w / 2 ^ (wbit - (k + 1)) % 65536 = w / 2 ^ (wbit - (k + 1)) := by
  apply Nat.mod_eq_of_lt
  have h1 : w / 2 ^ (wbit - (k + 1)) < 2 ^ (k + 1) := top_lt hw (by omega)
  have h2 : (2 : Nat) ^ (k + 1) ≤ 2 ^ 16 := Nat.pow_le_pow_right (by norm_num) (by omega)
  have h3 : (2 : Nat) ^ 16 = 65536 := by norm_num
  omega

theorem searchFrom_step_none {bits values : List Nat} {t : HTable} {w wbit : Nat}
    (hg : GoodTable bits values t) (hw : w < 2 ^ wbit) (hwbit : 16 ≤ wbit)
    {rem k : Nat} (hk : k < 16) (hnf : ¬ FoundAt bits w wbit k) :
    searchFrom t w wbit (rem + 1) k (cumPre bits k) =
      searchFrom t w wbit rem (k + 1) (cumPre bits (k + 1)) := by
  have hcs : cumPre bits (k + 1) = cumPre bits k + bits.getD k 0 :=
    cumPre_succ k bits (by rw [hg.hlen]; omega)
  simp only [searchFrom, hg.hbits]
  split_ifs with hcnt
  · rw [scanBlock_none]
    · rw [hcs]
    · intro i hi hcon
      obtain ⟨hlt, hceq⟩ := hcon
      rw [goodTable_codes_getD hg hk hi, top_mod_eq hw hk hwbit] at hceq
      exact hnf ⟨i, hi, hceq⟩
  · rw [hcs]

theorem searchFrom_none {bits values : List Nat} {t : HTable} {w wbit : Nat}
    (hg : GoodTable bits values t) (hw : w < 2 ^ wbit) (hwbit : 16 ≤ wbit) :
    ∀ rem k, k + rem ≤ 16 →
    (∀ k0, k ≤ k0 → k0 < k + rem → ¬ FoundAt bits w wbit k0) →
    searchFrom t w wbit rem k (cumPre bits k) = .error .FormatError := by
  intro rem
  induction rem with
  | zero => intro k _ _; rfl
  | succ rem ih =>
    intro k hle hno
    rw [searchFrom_step_none hg hw hwbit (by omega) (hno k (le_refl k) (by omega))]
    exact ih (k + 1) (by omega) (fun k0 h1 h2 => hno k0 (by omega) (by omega))

theorem searchFrom_found {bits values : List Nat} {t : HTable} {w wbit : Nat}
    (hg : GoodTable bits values t) (hw : w < 2 ^ wbit) (hwbit : 16 ≤ wbit) :
    ∀ rem k k0 j0, k + rem = 16 → k ≤ k0 → k0 < 16 →
    j0 < bits.getD k0 0 → natStS bits 0 k0 + j0 = w / 2 ^ (wbit - (k0 + 1)) →
    searchFrom t w wbit rem k (cumPre bits k) =
      .ok (values.getD (cumPre bits k0 + j0) 0, k0 + 1) := by
  intro rem
  induction rem with
  | zero => intro k k0 j0 h16 hkk0 hk0 _ _; omega
  | succ rem ih =>
    intro k k0 j0 h16 hkk0 hk0 hj0 hje
    rcases Nat.eq_or_lt_of_le hkk0 with heq | hlt
    · subst heq
      simp only [searchFrom, hg.hbits]
      rw [if_pos (by omega)]
      rw [top_mod_eq hw hk0 hwbit]
      rw [scanBlock_found t.codes t.data t.numCodes _ _ _ j0 hj0 ?_ ?_ ?_]
      · rw [hg.hdata]
      · rw [hg.hnum]
        exact cumPre_add_lt_sum k bits j0 (by rw [hg.hlen]; omega) hj0
      · rw [goodTable_codes_getD hg hk0 hj0]
        exact hje
      · intro i hi
        rw [goodTable_codes_getD hg hk0 (by omega)]
        omega
    · have hnf : ¬ FoundAt bits w wbit k := by
        intro hf
        exact foundAt_unique hg.hlen hg.hkraft hlt hk0 (by omega) hf ⟨j0, hj0, hje⟩
      rw [searchFrom_step_none hg hw hwbit (by omega) hnf]
      exact ih (k + 1) k0 j0 (by omega) (by omega) hk0 hj0 hje

theorem cover_iff {d c e : Nat} : d / 2 ^ e = c ↔ c * 2 ^ e ≤ d ∧ d < c * 2 ^ e + 2 ^ e := by
  have hpos : 0 < 2 ^ e := Nat.pos_pow_of_pos _ (by norm_num)
  have h1 : c ≤ d / 2 ^ e ↔ c * 2 ^ e ≤ d := Nat.le_div_iff_mul_le hpos
  have h2 : d / 2 ^ e < c + 1 ↔ d < (c + 1) * 2 ^ e := Nat.div_lt_iff_lt_mul hpos
  have he : (c + 1) * 2 ^ e = c * 2 ^ e + 2 ^ e := by ring
  constructor
  · intro h
    refine ⟨h1.mp (by omega), ?_⟩
    have := h2.mp (by omega)
    omega
  · rintro ⟨ha, hb⟩
    have ha2 := h1.mpr ha
    have hb2 := h2.mpr (by omega)
    omega

theorem lutWrite_at {f : Nat → Nat} {c m d e : Nat} (hm : m < 10) (hc : c < 2 ^ (m + 1))
    (hd : d < 1024) :
    lutWrite f (c * 2 ^ (9 - m) % 65536 % 1024) (2 ^ (9 - m)) e d =
      if d / 2 ^ (9 - m) = c then e else f d := by
  have hpos : 0 < 2 ^ (9 - m) := Nat.pos_pow_of_pos _ (by norm_num)
  have hlt : c * 2 ^ (9 - m) < 1024 := by
    calc c * 2 ^ (9 - m) < 2 ^ (m + 1) * 2 ^ (9 - m) := (Nat.mul_lt_mul_right hpos).mpr hc
      _ = 2 ^ 10 := by rw [← pow_add]; congr 1; omega
      _ = 1024 := by norm_num
  have hm1 : c * 2 ^ (9 - m) % 65536 = c * 2 ^ (9 - m) := Nat.mod_eq_of_lt (by omega)
  have hm2 : c * 2 ^ (9 - m) % 1024 = c * 2 ^ (9 - m) := Nat.mod_eq_of_lt hlt
  simp only [lutWrite, hm1, hm2]
  by_cases hq : d / 2 ^ (9 - m) = c
  · obtain ⟨ha, hb⟩ := cover_iff.mp hq
    rw [if_pos ⟨ha, hb, hd⟩, if_pos hq]
  · rw [if_neg ?_, if_neg hq]
    rintro ⟨ha, hb, _⟩
    exact hq (cover_iff.mpr ⟨ha, hb⟩)

theorem values_getD_lt {bits values : List Nat} {t : HTable} (hg : GoodTable bits values t)
    {i : Nat} (hi : i < values.length) : values.getD i 0 < 256 := by
  rw [List.getD_eq_getElem?_getD, List.getElem?_eq_getElem hi, Option.getD_some]
  exact hg.hbytes _ (List.getElem_mem hi)

theorem windowOf_lt (s : BitStream) : (windowOf s).1 < 2 ^ (windowOf s).2 := by
  simp only [windowOf]
  have h32 : s.bitsInBuffer % 32 < 32 := Nat.mod_lt _ (by norm_num)
  split_ifs with h1 h2
  · exact Nat.mod_lt _ (Nat.pos_pow_of_pos _ (by norm_num))
  · rw [h2]
    norm_num
  · exfalso
    omega

theorem windowOf_zero {s : BitStream} (h : s.bitsInBuffer = 0) : windowOf s = (0, 0) := by
  simp [windowOf, h]

theorem fillWindowAux_ok {target : Nat} :
    ∀ (fuel : Nat) (data : List Nat) (pos : Nat) (marker : Option Nat) (w wbit : Nat)
      (flg : Bool) {w2 wbit2 pos2 : Nat} {m2 : Option Nat},
    w < 2 ^ wbit →
    fillWindowAux fuel target data pos marker w wbit flg = .ok (w2, wbit2, pos2, m2) →
    w2 < 2 ^ wbit2 ∧ target ≤ wbit2 := by
  intro fuel
  induction fuel with
  | zero =>
    intro data pos marker w wbit flg w2 wbit2 pos2 m2 hw h
    exact absurd h (by simp [fillWindowAux])
  | succ fuel ih =>
    intro data pos marker w wbit flg w2 wbit2 pos2 m2 hw h
    simp only [fillWindowAux] at h
    by_cases hwb : wbit < target
    · rw [if_pos hwb] at h
      have hshift : ∀ b, b < 256 → w * 256 % 4294967296 + b < 2 ^ (wbit + 8) := by
        intro b hb
        have h1 : w * 256 % 4294967296 ≤ w * 256 := Nat.mod_le _ _
        have h2 : 2 ^ (wbit + 8) = 2 ^ wbit * 256 := by rw [pow_add]; norm_num
        have h3 : (w + 1) * 256 ≤ 2 ^ wbit * 256 :=
          mul_le_mul_right' (Nat.succ_le_of_lt hw) 256
        omega
      cases marker with
      | some mk =>
        exact ih data pos (some mk) _ (wbit + 8) flg (hshift 255 (by norm_num)) h
      | none =>
        by_cases hpos : pos < data.length
        · rw [if_pos hpos] at h
          by_cases hflg : flg = true
          · rw [if_pos hflg] at h
            exact ih _ _ _ _ _ _ (hshift 255 (by norm_num)) h
          · rw [if_neg hflg] at h
            by_cases hb : data.getD pos 0 % 256 = 255
            · rw [if_pos hb] at h
              exact ih _ _ _ _ _ _ hw h
            · rw [if_neg hb] at h
              exact ih _ _ _ _ _ _ (hshift _ (Nat.mod_lt _ (by norm_num))) h
        · rw [if_neg hpos] at h
          exact absurd h (by simp)
    · rw [if_neg hwb] at h
      obtain ⟨h1, h2, h3, h4⟩ : w = w2 ∧ wbit = wbit2 ∧ pos = pos2 ∧ marker = m2 := by
        simpa using h
      subst h1
      subst h2
      exact ⟨hw, by omega⟩

theorem searchFrom_skip {bits values : List Nat} {t : HTable} {w wbit : Nat}
    (hg : GoodTable bits values t) (hw : w < 2 ^ wbit) (hwbit : 16 ≤ wbit) :
    ∀ n m, m + n = 10 →
    (∀ k, m ≤ k → k < 10 → ¬ FoundAt bits w wbit k) →
    searchFrom t w wbit (16 - m) m (cumPre bits m) =
      searchFrom t w wbit 6 10 (cumPre bits 10) := by
  intro n
  induction n with
  | zero =>
    intro m hm _
    obtain rfl : m = 10 := by omega
    norm_num
  | succ n ih =>
    intro m hm hno
    have h16 : 16 - m = (16 - (m + 1)) + 1 := by omega
    rw [h16, searchFrom_step_none hg hw hwbit (by omega) (hno m le_rfl (by omega))]
    exact ih (m + 1) (by omega) (fun k h1 h2 => hno k (by omega) h2)

theorem lutFillLen_spec {bits values : List Nat} {t : HTable}
    (hg : GoodTable bits values t) {m : Nat} (hm : m < 10) :
    ∀ cnt s f, s + cnt = bits.getD m 0 →
    ((lutFillLen t.codes t.data t.numCodes m cnt (cumPre bits m + s) f).1 =
        cumPre bits m + bits.getD m 0) ∧
    (∀ d, d < 1024 →
      ((∀ i, i < cnt → natStS bits 0 m + (s + i) ≠ d / 2 ^ (9 - m)) →
        (lutFillLen t.codes t.data t.numCodes m cnt (cumPre bits m + s) f).2 d = f d) ∧
      (∀ i, i < cnt → natStS bits 0 m + (s + i) = d / 2 ^ (9 - m) →
        (lutFillLen t.codes t.data t.numCodes m cnt (cumPre bits m + s) f).2 d =
          values.getD (cumPre bits m + (s + i)) 0 % 256 + (m + 1) * 256)) := by
  intro cnt
  induction cnt with
  | zero =>
    intro s f hsum
    refine ⟨by simp only [lutFillLen]; omega, fun d hd => ⟨fun _ => rfl, fun i hi => by omega⟩⟩
  | succ cnt ih =>
    intro s f hsum
    have hs : s < bits.getD m 0 := by omega
    have hidx : cumPre bits m + s < bits.sum :=
      cumPre_add_lt_sum m bits s (by rw [hg.hlen]; omega) hs
    have hnn : ¬ (cumPre bits m + s ≥ t.numCodes) := by rw [hg.hnum]; omega
    have hcode : t.codes.getD (cumPre bits m + s) 0 = natStS bits 0 m + s :=
      goodTable_codes_getD hg (by omega) hs
    have hclt : natStS bits 0 m + s < 2 ^ (m + 1) :=
      codeVal_lt hg.hlen hg.hkraft (by omega) hs
    have harg : cumPre bits m + s + 1 = cumPre bits m + (s + 1) := rfl
    simp only [lutFillLen, hnn, if_false, harg, hcode]
    obtain ⟨ih1, ih2⟩ := ih (s + 1) (lutWrite f
      ((natStS bits 0 m + s) * 2 ^ (10 - 1 - m) % 65536 % 1024) (2 ^ (10 - 1 - m))
      (t.data.getD (cumPre bits m + s) 0 % 256 + (m + 1) * 256)) (by omega)
    refine ⟨ih1, fun d hd => ?_⟩
    obtain ⟨ihA, ihB⟩ := ih2 d hd
    have h91 : 10 - 1 - m = 9 - m := by omega
    have hfw : ∀ g : Nat, lutWrite f
        ((natStS bits 0 m + s) * 2 ^ (10 - 1 - m) % 65536 % 1024) (2 ^ (10 - 1 - m)) g d =
        if d / 2 ^ (9 - m) = natStS bits 0 m + s then g else f d := by
      intro g
      rw [h91]
      exact lutWrite_at hm hclt hd
    constructor
    · intro hno
      rw [ihA (fun i hi => by
        have he : s + 1 + i = s + (i + 1) := by omega
        rw [he]
        exact hno (i + 1) (by omega))]
      rw [hfw]
      rw [if_neg]
      intro hq
      exact hno 0 (by omega) (by rw [Nat.add_zero]; exact hq.symm)
    · intro i hi hmatch
      cases i with
      | zero =>
        rw [Nat.add_zero] at hmatch
        have hupd : ∀ i2, i2 < cnt → natStS bits 0 m + (s + 1 + i2) ≠ d / 2 ^ (9 - m) := by
          intro i2 hi2 hcon
          rw [← hmatch] at hcon
          omega
        rw [ihA hupd, hfw, if_pos hmatch.symm, hg.hdata]
        norm_num
      | succ i =>
        have he : s + (i + 1) = s + 1 + i := by omega
        rw [he] at hmatch ⊢
        exact ihB i (by omega) hmatch

theorem lutFillAux_spec {bits values : List Nat} {t : HTable}
    (hg : GoodTable bits values t) :
    ∀ rem m f, m + rem = 10 →
    ((lutFillAux t rem m (cumPre bits m) f).1 = cumPre bits 10) ∧
    (∀ d, d < 1024 →
      ((∀ k j, m ≤ k → k < 10 → j < bits.getD k 0 →
          natStS bits 0 k + j ≠ d / 2 ^ (9 - k)) →
        (lutFillAux t rem m (cumPre bits m) f).2 d = f d) ∧
      (∀ k j, m ≤ k → k < 10 → j < bits.getD k 0 →
          natStS bits 0 k + j = d / 2 ^ (9 - k) →
        (lutFillAux t rem m (cumPre bits m) f).2 d =
          values.getD (cumPre bits k + j) 0 % 256 + (k + 1) * 256)) := by
  intro rem
  induction rem with
  | zero =>
    intro m f hm
    obtain rfl : m = 10 := by omega
    exact ⟨rfl, fun d hd => ⟨fun _ => rfl, fun k j h1 h2 => by omega⟩⟩
  | succ rem ih =>
    intro m f hm
    have hm10 : m < 10 := by omega
    have hm16 : m < 16 := by omega
    obtain ⟨len1, len2⟩ := lutFillLen_spec hg hm10 (bits.getD m 0) 0 f (by omega)
    simp only [Nat.add_zero, Nat.zero_add] at len1 len2
    have hcs : cumPre bits m + bits.getD m 0 = cumPre bits (m + 1) :=
      (cumPre_succ m bits (by rw [hg.hlen]; omega)).symm
    simp only [lutFillAux, hg.hbits]
    rw [len1, hcs]
    obtain ⟨ih1, ih2⟩ := ih (m + 1)
      (lutFillLen t.codes t.data t.numCodes m (bits.getD m 0) (cumPre bits m) f).2
      (by omega)
    refine ⟨ih1, fun d hd => ?_⟩
    obtain ⟨ihA, ihB⟩ := ih2 d hd
    obtain ⟨lenA, lenB⟩ := len2 d hd
    have hexp : ∀ k : Nat, 10 - (k + 1) = 9 - k := fun k => by omega
    constructor
    · intro hno
      rw [ihA (fun k j h1 h2 h3 => hno k j (by omega) h2 h3)]
      exact lenA (fun i hi => hno m i le_rfl hm10 hi)
    · intro k j hmk hk hj hmatch
      rcases Nat.eq_or_lt_of_le hmk with heq | hlt
      · subst heq
        rw [ihA ?_]
        · exact lenB j hj hmatch
        · intro k2 j2 h1 h2 h3 hcon
          have hf1 : FoundAt bits d 10 m := ⟨j, hj, by rw [hexp]; exact hmatch⟩
          have hf2 : FoundAt bits d 10 k2 := ⟨j2, h3, by rw [hexp]; exact hcon⟩
          exact foundAt_unique hg.hlen hg.hkraft (by omega) (by omega) (by omega) hf1 hf2
      · exact ihB k j (by omega) hk hj hmatch

theorem cumPre_zero (bs : List Nat) : cumPre bs 0 = 0 := by
  cases bs <;> rfl

theorem buildLut_longOffset {bits values : List Nat} {t : HTable}
    (hg : GoodTable bits values t) : (buildLut t).2 = cumPre bits 10 := by
  have h := (lutFillAux_spec hg 10 0 (fun _ => 65535) rfl).1
  rw [cumPre_zero] at h
  simp only [buildLut]
  exact h

theorem buildLut_miss {bits values : List Nat} {t : HTable}
    (hg : GoodTable bits values t) {d : Nat} (hd : d < 1024)
    (hno : ∀ k j, k < 10 → j < bits.getD k 0 → natStS bits 0 k + j ≠ d / 2 ^ (9 - k)) :
    (buildLut t).1 d = 65535 := by
  have h := ((lutFillAux_spec hg 10 0 (fun _ => 65535) rfl).2 d hd).1
  rw [cumPre_zero] at h
  simp only [buildLut]
  exact h (fun k j _ h2 h3 => hno k j h2 h3)

theorem buildLut_hit {bits values : List Nat} {t : HTable}
    (hg : GoodTable bits values t) {d k j : Nat} (hd : d < 1024) (hk : k < 10)
    (hj : j < bits.getD k 0) (hmatch : natStS bits 0 k + j = d / 2 ^ (9 - k)) :
    (buildLut t).1 d = values.getD (cumPre bits k + j) 0 % 256 + (k + 1) * 256 := by
  have h := ((lutFillAux_spec hg 10 0 (fun _ => 65535) rfl).2 d hd).2
  rw [cumPre_zero] at h
  simp only [buildLut]
  exact h k j (Nat.zero_le k) hk hj hmatch

theorem decode2_eq_decode1 {bits values : List Nat} {t : HTable}
    (hg : GoodTable bits values t) (s : BitStream) :
    decode2 t (buildLut t).1 (buildLut t).2 s = decode1 t s := by
  simp only [decode1, decode2]
  rcases hfill : fillWindowAux (s.data.length + 3) 16 s.data s.pos s.markerFound
    (windowOf s).1 (windowOf s).2 false with e | ⟨w, wbit, pos, marker⟩
  · simp only [hfill]
  · simp only [hfill]
    have hw0 := windowOf_lt s
    obtain ⟨hw, hwbit⟩ := fillWindowAux_ok (s.data.length + 3) s.data s.pos s.markerFound
      (windowOf s).1 (windowOf s).2 false hw0 hfill
    have hd1024 : w / 2 ^ (wbit - 10) < 1024 := by
      have h1 := top_lt hw (show 10 ≤ wbit by omega)
      have h2 : (2 : Nat) ^ 10 = 1024 := by norm_num
      omega
    have hconv : ∀ k, k < 10 → w / 2 ^ (wbit - 10) / 2 ^ (9 - k) = w / 2 ^ (wbit - (k + 1)) := by
      intro k hk
      have h := @top_top w wbit (k + 1) 10 (by omega) (by omega)
      rw [show 10 - (k + 1) = 9 - k by omega] at h
      exact h
    by_cases hex : ∃ k, k < 10 ∧ FoundAt bits w wbit k
    · obtain ⟨k, hk, j, hj, hje⟩ := hex
      have hmatch : natStS bits 0 k + j = w / 2 ^ (wbit - 10) / 2 ^ (9 - k) := by
        rw [hconv k hk]
        exact hje
      have hlut := buildLut_hit hg hd1024 hk hj hmatch
      have hVlen : cumPre bits k + j < values.length := by
        rw [hg.hvals]
        exact cumPre_add_lt_sum k bits j (by rw [hg.hlen]; omega) hj
      have hV := values_getD_lt hg hVlen
      rw [if_pos ⟨hd1024, by rw [hlut]; omega⟩]
      have hsf : searchFrom t w wbit 16 0 0 = .ok (values.getD (cumPre bits k + j) 0, k + 1) := by
        have h := searchFrom_found hg hw hwbit 16 0 k j (by omega) (Nat.zero_le k)
          (by omega) hj hje
        rwa [cumPre_zero] at h
      simp only [hsf]
      rw [hlut]
      have hmod : (values.getD (cumPre bits k + j) 0 % 256 + (k + 1) * 256) % 256 =
          values.getD (cumPre bits k + j) 0 := by omega
      have hdiv : (values.getD (cumPre bits k + j) 0 % 256 + (k + 1) * 256) / 256 = k + 1 := by
        omega
      rw [hmod, hdiv]
    · have hmiss : (buildLut t).1 (w / 2 ^ (wbit - 10)) = 65535 := by
        apply buildLut_miss hg hd1024
        intro k j hk hj hne
        exact hex ⟨k, hk, j, hj, by rw [← hconv k hk]; exact hne⟩
      rw [if_neg (by rintro ⟨_, hne⟩; exact hne hmiss), buildLut_longOffset hg]
      have hskip : searchFrom t w wbit 16 0 0 = searchFrom t w wbit 6 10 (cumPre bits 10) := by
        have h := searchFrom_skip hg hw hwbit 10 0 rfl (fun k h0 hk hf => hex ⟨k, hk, hf⟩)
        simp only [Nat.sub_zero, cumPre_zero] at h
        exact h
      rw [hskip]

theorem destuff0_eq_destuff1_none (data : List Nat) (pos : Nat) :
    destuff0 data pos none = destuff1 data pos none := by
  simp only [destuff0, destuff1]

theorem destuff_agree {data : List Nat} {pos0 pos1 : Nat} {marker : Option Nat}
    (hpos : marker = none → pos0 = pos1) {a pa' : Nat} {ma' : Option Nat}
    {b pb' : Nat} {mb' : Option Nat}
    (h0 : destuff0 data pos0 marker = some (a, pa', ma'))
    (h1 : destuff1 data pos1 marker = some (b, pb', mb')) :
    a = b ∧ ma' = mb' ∧ (mb' = none → pa' = pb') := by
  cases marker with
  | some mk =>
    simp only [destuff0] at h0
    simp only [destuff1] at h1
    by_cases hp : pos0 < data.length
    · rw [if_pos hp] at h0
      obtain ⟨ha, hpa, hma⟩ : 255 = a ∧ pos0 + 1 = pa' ∧ some mk = ma' := by simpa using h0
      obtain ⟨hb, hpb, hmb⟩ : 255 = b ∧ pos1 = pb' ∧ some mk = mb' := by simpa using h1
      refine ⟨ha ▸ hb ▸ rfl, hma ▸ hmb ▸ rfl, fun hnone => ?_⟩
      rw [← hmb] at hnone
      exact absurd hnone (by simp)
    · rw [if_neg hp] at h0
      exact absurd h0 (by simp)
  | none =>
    rw [hpos rfl, destuff0_eq_destuff1_none, h1] at h0
    obtain ⟨h2, h3, h4⟩ : b = a ∧ pb' = pa' ∧ mb' = ma' := by simpa using h0
    exact ⟨h2.symm, h4.symm, fun _ => h3.symm⟩

theorem destuff1_lt {data : List Nat} {pos : Nat} {marker : Option Nat} {b p' : Nat}
    {m' : Option Nat} (h : destuff1 data pos marker = some (b, p', m')) : b < 256 := by
  cases marker with
  | some mk =>
    have h2 : 255 = b ∧ pos = p' ∧ some mk = m' := by simpa [destuff1] using h
    omega
  | none =>
    simp only [destuff1] at h
    by_cases h1 : pos < data.length
    · rw [if_pos h1] at h
      by_cases h2 : data.getD pos 0 % 256 = 255
      · rw [if_pos h2] at h
        by_cases h3 : pos + 1 < data.length
        · rw [if_pos h3] at h
          obtain ⟨h4, -, -⟩ : 255 = b ∧ pos + 2 = p' ∧
              (if data.getD (pos + 1) 0 % 256 ≠ 0 then some (data.getD (pos + 1) 0 % 256)
               else none) = m' := by simpa using h
          omega
        · rw [if_neg h3] at h
          exact absurd h (by simp)
      · rw [if_neg h2] at h
        obtain ⟨h4, -, -⟩ : data.getD pos 0 % 256 = b ∧ pos + 1 = p' ∧ none = m' := by
          simpa using h
        omega
    · rw [if_neg h1] at h
      exact absurd h (by simp)

theorem fillWindowAux_exit {fuel target : Nat} {data : List Nat} {pos : Nat}
    {marker : Option Nat} {w wbit : Nat} {flg : Bool} (h : ¬ wbit < target) :
    fillWindowAux (fuel + 1) target data pos marker w wbit flg =
      .ok (w, wbit, pos, marker) := by
  simp only [fillWindowAux]
  rw [if_neg h]

theorem fillWindowAux_marker {fuel target : Nat} {data : List Nat} {pos : Nat}
    {mk : Nat} {w wbit : Nat} {flg : Bool} (h : wbit < target) :
    fillWindowAux (fuel + 1) target data pos (some mk) w wbit flg =
      fillWindowAux fuel target data pos (some mk)
        (w * 256 % 4294967296 + 255) (wbit + 8) flg := by
  simp only [fillWindowAux]
  rw [if_pos h]

theorem fillWindowAux_end {fuel target : Nat} {data : List Nat} {pos : Nat}
    {w wbit : Nat} {flg : Bool} (h : wbit < target) (hp : ¬ pos < data.length) :
    fillWindowAux (fuel + 1) target data pos none w wbit flg = .error .InputErr := by
  simp only [fillWindowAux]
  rw [if_pos h, if_neg hp]

theorem fillWindowAux_flg {fuel target : Nat} {data : List Nat} {pos : Nat}
    {w wbit : Nat} (h : wbit < target) (hp : pos < data.length) :
    fillWindowAux (fuel + 1) target data pos none w wbit true =
      fillWindowAux fuel target data (pos + 1)
        (if data.getD pos 0 % 256 ≠ 0 then some (data.getD pos 0 % 256) else none)
        (w * 256 % 4294967296 + 255) (wbit + 8) false := by
  simp only [fillWindowAux]
  rw [if_pos h, if_pos hp]
  simp only [if_true]

theorem fillWindowAux_ff {fuel target : Nat} {data : List Nat} {pos : Nat}
    {w wbit : Nat} (h : wbit < target) (hp : pos < data.length)
    (hb : data.getD pos 0 % 256 = 255) :
    fillWindowAux (fuel + 1) target data pos none w wbit false =
      fillWindowAux fuel target data (pos + 1) none w wbit true := by
  simp only [fillWindowAux]
  rw [if_pos h, if_pos hp, if_neg (by simp), if_pos hb]

theorem fillWindowAux_byte {fuel target : Nat} {data : List Nat} {pos : Nat}
    {w wbit : Nat} (h : wbit < target) (hp : pos < data.length)
    (hb : data.getD pos 0 % 256 ≠ 255) :
    fillWindowAux (fuel + 1) target data pos none w wbit false =
      fillWindowAux fuel target data (pos + 1) none
        (w * 256 % 4294967296 + data.getD pos 0 % 256) (wbit + 8) false := by
  simp only [fillWindowAux]
  rw [if_pos h, if_pos hp, if_neg (by simp), if_neg hb]

theorem fill_snd (data : List Nat) (pos : Nat) (marker : Option Nat) (w fuel : Nat)
    (hfuel : data.length - pos + 2 ≤ fuel) :
    fillWindowAux fuel 16 data pos marker w 8 false =
      match destuff1 data pos marker with
      | none => .error .InputErr
      | some (b, pos', m') => .ok (w * 256 % 4294967296 + b, 16, pos', m') := by
  cases marker with
  | some mk =>
    obtain ⟨g, rfl⟩ : ∃ g, fuel = g + 2 := ⟨fuel - 2, by omega⟩
    rw [show g + 2 = (g + 1) + 1 from rfl, fillWindowAux_marker (by omega),
      fillWindowAux_exit (by omega)]
    rfl
  | none =>
    by_cases hp : pos < data.length
    · by_cases hb : data.getD pos 0 % 256 = 255
      · by_cases hp2 : pos + 1 < data.length
        · obtain ⟨g, rfl⟩ : ∃ g, fuel = g + 3 := ⟨fuel - 3, by omega⟩
          rw [show g + 3 = (g + 2) + 1 from rfl, fillWindowAux_ff (by omega) hp hb,
            show g + 2 = (g + 1) + 1 from rfl, fillWindowAux_flg (by omega) hp2,
            fillWindowAux_exit (by omega)]
          have houter : destuff1 data pos none = some (255, pos + 2,
              if data.getD (pos + 1) 0 % 256 ≠ 0 then some (data.getD (pos + 1) 0 % 256)
              else none) := by
            simp only [destuff1]
            rw [if_pos hp, if_pos hb, if_pos hp2]
          rw [houter]
        · obtain ⟨g, rfl⟩ : ∃ g, fuel = g + 2 := ⟨fuel - 2, by omega⟩
          rw [show g + 2 = (g + 1) + 1 from rfl, fillWindowAux_ff (by omega) hp hb,
            fillWindowAux_end (by omega) (by omega)]
          have houter : destuff1 data pos none = none := by
            simp only [destuff1]
            rw [if_pos hp, if_pos hb, if_neg hp2]
          rw [houter]
      · obtain ⟨g, rfl⟩ : ∃ g, fuel = g + 2 := ⟨fuel - 2, by omega⟩
        rw [show g + 2 = (g + 1) + 1 from rfl, fillWindowAux_byte (by omega) hp hb,
          fillWindowAux_exit (by omega)]
        have houter : destuff1 data pos none = some (data.getD pos 0 % 256, pos + 1, none) := by
          simp only [destuff1]
          rw [if_pos hp, if_neg hb]
        rw [houter]
    · obtain ⟨g, rfl⟩ : ∃ g, fuel = g + 1 := ⟨fuel - 1, by omega⟩
      rw [fillWindowAux_end (by omega) hp]
      have houter : destuff1 data pos none = none := by
        simp only [destuff1]
        rw [if_neg hp]
      rw [houter]

theorem fill_two (data : List Nat) (pos : Nat) (marker : Option Nat) (fuel : Nat)
    (hfuel : data.length - pos + 3 ≤ fuel) :
    fillWindowAux fuel 16 data pos marker 0 0 false =
      match destuff1 data pos marker with
      | none => .error .InputErr
      | some (b0, pos1, m1) =>
        match destuff1 data pos1 m1 with
        | none => .error .InputErr
        | some (b1, pos2, m2) => .ok (b0 * 256 + b1, 16, pos2, m2) := by
  cases marker with
  | some mk =>
    obtain ⟨g, rfl⟩ : ∃ g, fuel = g + 1 := ⟨fuel - 1, by omega⟩
    rw [fillWindowAux_marker (by omega),
      fill_snd data pos (some mk) (0 * 256 % 4294967296 + 255) g (by omega)]
    rw [show destuff1 data pos (some mk) = some (255, pos, some mk) from rfl]
    norm_num
    rw [show destuff1 data pos (some mk) = some (255, pos, some mk) from rfl]
  | none =>
    by_cases hp : pos < data.length
    · by_cases hb : data.getD pos 0 % 256 = 255
      · by_cases hp2 : pos + 1 < data.length
        · have houter : destuff1 data pos none = some (255, pos + 2,
              if data.getD (pos + 1) 0 % 256 ≠ 0 then some (data.getD (pos + 1) 0 % 256)
              else none) := by
            simp only [destuff1]
            rw [if_pos hp, if_pos hb, if_pos hp2]
          obtain ⟨g, rfl⟩ : ∃ g, fuel = g + 2 := ⟨fuel - 2, by omega⟩
          rw [show g + 2 = (g + 1) + 1 from rfl, fillWindowAux_ff (by omega) hp hb,
            fillWindowAux_flg (by omega) hp2,
            fill_snd data (pos + 2) _ (0 * 256 % 4294967296 + 255) g (by omega)]
          rw [houter]
        · have houter : destuff1 data pos none = none := by
            simp only [destuff1]
            rw [if_pos hp, if_pos hb, if_neg hp2]
          obtain ⟨g, rfl⟩ : ∃ g, fuel = g + 2 := ⟨fuel - 2, by omega⟩
          rw [show g + 2 = (g + 1) + 1 from rfl, fillWindowAux_ff (by omega) hp hb,
            fillWindowAux_end (by omega) (by omega)]
          rw [houter]
      · obtain ⟨g, rfl⟩ : ∃ g, fuel = g + 1 := ⟨fuel - 1, by omega⟩
        rw [fillWindowAux_byte (by omega) hp hb,
          fill_snd data (pos + 1) none (0 * 256 % 4294967296 + data.getD pos 0 % 256) g
            (by omega)]
        have houter : destuff1 data pos none =
            some (data.getD pos 0 % 256, pos + 1, none) := by
          simp only [destuff1]
          rw [if_pos hp, if_neg hb]
        rw [houter]
        rcases hdd : destuff1 data (pos + 1) none with _ | ⟨b1, pos2, m2⟩ <;>
          simp only [hdd]
        have harith : (0 * 256 % 4294967296 + data.getD pos 0 % 256) * 256 % 4294967296 =
            data.getD pos 0 % 256 * 256 := by omega
        rw [harith]
    · obtain ⟨g, rfl⟩ : ∃ g, fuel = g + 1 := ⟨fuel - 1, by omega⟩
      rw [fillWindowAux_end (by omega) hp]
      have houter : destuff1 data pos none = none := by
        simp only [destuff1]
        rw [if_neg hp]
      rw [houter]

theorem and_two_pow_div {n i : Nat} :
    (if n &&& 2 ^ i ≠ 0 then 1 else 0) = n / 2 ^ i % 2 := by
  have hpos : 0 < 2 ^ i := Nat.pos_pow_of_pos _ (by norm_num)
  have hmod : n / 2 ^ i % 2 = 0 ∨ n / 2 ^ i % 2 = 1 := by omega
  rw [Nat.and_two_pow, Nat.testBit_to_div_mod]
  rcases hmod with h | h <;> rw [h] <;> simp [hpos.ne']

theorem readBit_mask {s : BitStream} {e : Nat} (hm : s.bitMask = 2 ^ e) :
    readBitLevel0 s =
      .ok (s.bitBuffer % 256 / 2 ^ e % 2, { s with bitMask := 2 ^ e / 2 }) := by
  have hne : ¬ s.bitMask = 0 := by
    rw [hm]
    have hpos : 0 < (2 : Nat) ^ e := Nat.pos_pow_of_pos _ (by norm_num)
    omega
  have hre : refill0 s = .ok s := by
    simp only [refill0]
    rw [if_neg hne]
  simp only [readBitLevel0, hre]
  rw [hm, and_two_pow_div]

theorem refill0_destuff {s : BitStream} (hm : s.bitMask = 0) :
    refill0 s =
      match destuff0 s.data s.pos s.markerFound with
      | none => .error .InputErr
      | some (b, p', m') =>
        .ok { s with pos := p', markerFound := m', bitBuffer := b, bitMask := 128 } := by
  by_cases hp : s.pos < s.data.length
  · cases hmk : s.markerFound with
    | some mk =>
      have hR : destuff0 s.data s.pos (some mk) = some (255, s.pos + 1, some mk) := by
        simp only [destuff0]
        rw [if_pos hp]
      rw [hR]
      simp only [refill0, hmk, Option.isSome_some]
      rw [if_pos hm, if_pos hp]
      simp only [if_true]
    | none =>
      by_cases hb : s.data.getD s.pos 0 % 256 = 255
      · by_cases hp2 : s.pos + 1 < s.data.length
        · have hR : destuff0 s.data s.pos none = some (255, s.pos + 2,
              if s.data.getD (s.pos + 1) 0 % 256 ≠ 0
              then some (s.data.getD (s.pos + 1) 0 % 256) else none) := by
            simp only [destuff0]
            rw [if_pos hp, if_pos hb, if_pos hp2]
          rw [hR]
          simp only [refill0, hmk, Option.isSome_none]
          rw [if_pos hm, if_pos hp, if_neg (by simp), if_pos hb, if_pos hp2]
        · have hR : destuff0 s.data s.pos none = none := by
            simp only [destuff0]
            rw [if_pos hp, if_pos hb, if_neg hp2]
          rw [hR]
          simp only [refill0, hmk, Option.isSome_none]
          rw [if_pos hm, if_pos hp, if_neg (by simp), if_pos hb, if_neg hp2]
      · have hR : destuff0 s.data s.pos none =
            some (s.data.getD s.pos 0 % 256, s.pos + 1, none) := by
          simp only [destuff0]
          rw [if_pos hp, if_neg hb]
        rw [hR]
        simp only [refill0, hmk, Option.isSome_none]
        rw [if_pos hm, if_pos hp, if_neg (by simp), if_neg hb]
  · have hR : destuff0 s.data s.pos s.markerFound = none := by
      simp only [destuff0]
      rw [if_neg hp]
    rw [hR]
    simp only [refill0]
    rw [if_pos hm, if_neg hp]

theorem readBit_refill {s : BitStream} (hm : s.bitMask = 0) :
    readBitLevel0 s =
      match destuff0 s.data s.pos s.markerFound with
      | none => .error .InputErr
      | some (b, p', m') =>
        .ok (b % 256 / 128 % 2,
          { s with pos := p', markerFound := m', bitBuffer := b, bitMask := 64 }) := by
  simp only [readBitLevel0, refill0_destuff hm]
  rcases hdd : destuff0 s.data s.pos s.markerFound with _ | ⟨b, p', m'⟩ <;>
    simp only [hdd]
  rw [show (128 : Nat) = 2 ^ 7 from by norm_num, and_two_pow_div]
  norm_num

theorem pow_div_two {e : Nat} (he : 0 < e) : (2 : Nat) ^ e / 2 = 2 ^ (e - 1) := by
  rw [show e = (e - 1) + 1 by omega, pow_succ, Nat.mul_div_cancel _ (by norm_num)]
  simp

theorem bit_hi {b0 b1 e : Nat} (hb1 : b1 < 256) :
    (b0 * 256 + b1) / 2 ^ (8 + e) = b0 / 2 ^ e := by
  have h1 : (2 : Nat) ^ (8 + e) = 256 * 2 ^ e := by
    rw [pow_add]
    norm_num
  rw [h1, ← Nat.div_div_eq_div_mul]
  congr 1
  rw [Nat.add_comm, Nat.add_mul_div_right _ _ (by norm_num : (0 : Nat) < 256),
    Nat.div_eq_of_lt hb1, Nat.zero_add]

theorem bit_lo {b0 b1 e : Nat} (he : e ≤ 7) :
    (b0 * 256 + b1) / 2 ^ e % 2 = b1 / 2 ^ e % 2 := by
  have h8 : 8 - e + e = 8 := by omega
  have h1 : (256 : Nat) = 2 ^ (8 - e) * 2 ^ e := by
    rw [← pow_add, h8]
    norm_num
  have h2 : b0 * 256 + b1 = b0 * 2 ^ (8 - e) * 2 ^ e + b1 := by
    rw [mul_assoc, ← h1]
  rw [h2, Nat.add_comm, Nat.add_mul_div_right _ _ (Nat.pos_pow_of_pos _ (by norm_num))]
  have h3 : b0 * 2 ^ (8 - e) = b0 * 2 ^ (7 - e) * 2 := by
    rw [show 8 - e = (7 - e) + 1 by omega, pow_succ]
    ring
  rw [h3, Nat.add_mul_mod_self_right]

theorem div_bit_step {x n : Nat} : x / 2 ^ (n + 1) * 2 + x / 2 ^ n % 2 = x / 2 ^ n := by
  have h1 : x / 2 ^ (n + 1) = x / 2 ^ n / 2 := by
    rw [Nat.div_div_eq_div_mul, pow_succ]
  rw [h1]
  omega

theorem phase_step {data : List Nat} {b0 b1 : Nat} {posa posb posc : Nat}
    {ma mb mc : Option Nat} (hb0 : b0 < 256) (hb1 : b1 < 256)
    (hd1 : destuff1 data posa ma = some (b0, posb, mb))
    (hd2 : destuff1 data posb mb = some (b1, posc, mc))
    {k : Nat} (hk : k < 16) {s : BitStream} (hsdata : s.data = data)
    (hph : Phase b0 b1 (posa, ma) (posb, mb) (posc, mc) k s) {bit : Nat} {s' : BitStream}
    (h : readBitLevel0 s = .ok (bit, s')) :
    bit = (b0 * 256 + b1) / 2 ^ (15 - k) % 2 ∧ s'.data = data ∧
      Phase b0 b1 (posa, ma) (posb, mb) (posc, mc) (k + 1) s' := by
  obtain ⟨ph0, ph1, phS⟩ := hph
  by_cases hk8 : k % 8 = 0
  · have hmask := ph0 hk8
    rw [readBit_refill hmask] at h
    rcases hds : destuff0 s.data s.pos s.markerFound with _ | ⟨b, p', m'⟩
    · rw [hds] at h
      exact absurd h (by simp)
    · rw [hds] at h
      obtain ⟨hbit, hs'⟩ : b % 256 / 128 % 2 = bit ∧
          { s with pos := p', markerFound := m', bitBuffer := b, bitMask := 64 } = s' := by
        simpa using h
      rw [hsdata] at hds
      subst hs'
      have hk08 : k = 0 ∨ k = 8 := by omega
      rcases hk08 with rfl | rfl
      · have hsync : SyncR (s.pos, s.markerFound) (posa, ma) := by simpa using phS
        obtain ⟨hmeq, hpeq⟩ := hsync
        simp only at hmeq hpeq
        rw [hmeq] at hds
        obtain ⟨hbb, hmm, hpp⟩ := destuff_agree (fun hn => hpeq hn) hds hd1
        refine ⟨?_, hsdata, ?_, ?_, ?_⟩
        · rw [show (15 : Nat) - 0 = 8 + 7 from rfl, bit_hi hb1, ← hbit, hbb,
            Nat.mod_eq_of_lt hb0]
          norm_num
        · intro hc
          exact absurd hc (by norm_num)
        · intro _
          refine ⟨by norm_num, ?_⟩
          show b % 256 = _
          rw [hbb, Nat.mod_eq_of_lt hb0]
          norm_num
        · have hred : (if (0 : Nat) + 1 = 0 then (posa, ma)
              else if (0 : Nat) + 1 ≤ 8 then (posb, mb) else (posc, mc)) = (posb, mb) := by
            norm_num
          rw [hred]
          exact ⟨hmm, hpp⟩
      · have hsync : SyncR (s.pos, s.markerFound) (posb, mb) := by simpa using phS
        obtain ⟨hmeq, hpeq⟩ := hsync
        simp only at hmeq hpeq
        rw [hmeq] at hds
        obtain ⟨hbb, hmm, hpp⟩ := destuff_agree (fun hn => hpeq hn) hds hd2
        refine ⟨?_, hsdata, ?_, ?_, ?_⟩
        · rw [show (15 : Nat) - 8 = 7 from rfl, bit_lo (by norm_num), ← hbit, hbb,
            Nat.mod_eq_of_lt hb1]
          norm_num
        · intro hc
          exact absurd hc (by norm_num)
        · intro _
          refine ⟨by norm_num, ?_⟩
          show b % 256 = _
          rw [hbb, Nat.mod_eq_of_lt hb1]
          norm_num
        · have hred : (if (8 : Nat) + 1 = 0 then (posa, ma)
              else if (8 : Nat) + 1 ≤ 8 then (posb, mb) else (posc, mc)) = (posc, mc) := by
            norm_num
          rw [hred]
          exact ⟨hmm, hpp⟩
  · obtain ⟨hmask, hbuf⟩ := ph1 hk8
    rw [readBit_mask hmask] at h
    obtain ⟨hbit, hs'⟩ : s.bitBuffer % 256 / 2 ^ (7 - k % 8) % 2 = bit ∧
        { s with bitMask := 2 ^ (7 - k % 8) / 2 } = s' := by simpa using h
    subst hs'
    refine ⟨?_, hsdata, ?_, ?_, ?_⟩
    · rw [← hbit, hbuf]
      by_cases hklt : k < 8
      · rw [if_pos hklt]
        have hkk : k % 8 = k := Nat.mod_eq_of_lt (by omega)
        rw [hkk, show 15 - k = 8 + (7 - k) from by omega, bit_hi hb1]
      · rw [if_neg hklt]
        have hkk : k % 8 = k - 8 := by omega
        rw [hkk, show 7 - (k - 8) = 15 - k from by omega,
          bit_lo (show 15 - k ≤ 7 by omega)]
    · intro hc
      have h7 : k % 8 = 7 := by omega
      show 2 ^ (7 - k % 8) / 2 = 0
      rw [h7]
      norm_num
    · intro hc
      have hlt7 : k % 8 < 7 := by omega
      constructor
      · show 2 ^ (7 - k % 8) / 2 = 2 ^ (7 - (k + 1) % 8)
        have h1 : (k + 1) % 8 = k % 8 + 1 := by omega
        rw [h1, pow_div_two (by omega)]
        congr 1
      · show s.bitBuffer % 256 = _
        rcases Nat.lt_or_ge k 8 with h8 | h8
        · rw [hbuf, if_pos h8, if_pos (by omega)]
        · rw [hbuf, if_neg (by omega), if_neg (by omega)]
    · have hk0 : ¬ (k = 0) := by omega
      rw [if_neg hk0] at phS
      have hk10 : ¬ (k + 1 = 0) := by omega
      rw [if_neg hk10]
      rcases Nat.lt_or_ge k 8 with h8 | h8
      · rw [if_pos (by omega)]
        rw [if_pos (by omega)] at phS
        exact phS
      · rw [if_neg (by omega)]
        rw [if_neg (by omega)] at phS
        exact phS

theorem decode0Aux_eq_search {bits values : List Nat} {t : HTable}
    (hg : GoodTable bits values t) {data : List Nat} {b0 b1 : Nat}
    {posa posb posc : Nat} {ma mb mc : Option Nat} (hb0 : b0 < 256) (hb1 : b1 < 256)
    (hd1 : destuff1 data posa ma = some (b0, posb, mb))
    (hd2 : destuff1 data posb mb = some (b1, posc, mc)) :
    ∀ rem k d idx s sym s2, k + rem = 16 → s.data = data →
    d = (b0 * 256 + b1) / 2 ^ (16 - k) → idx = cumPre bits k →
    Phase b0 b1 (posa, ma) (posb, mb) (posc, mc) k s →
    decode0Aux t rem k d idx s = .ok (sym, s2) →
    ∃ bl, searchFrom t (b0 * 256 + b1) 16 rem k (cumPre bits k) = .ok (sym, bl) := by
  intro rem
  induction rem with
  | zero =>
    intro k d idx s sym s2 h16 hsd hd hidx hph h
    exact absurd h (by simp [decode0Aux])
  | succ rem ih =>
    intro k d idx s sym s2 h16 hsd hd hidx hph h
    simp only [decode0Aux] at h
    rcases hrb : readBitLevel0 s with e | ⟨bit, s1⟩
    · rw [hrb] at h
      exact absurd h (by simp)
    · simp only [hrb] at h
      obtain ⟨hbit, hs1d, hph1⟩ := phase_step hb0 hb1 hd1 hd2 (by omega) hsd hph hrb
      have hw16 : b0 * 256 + b1 < 65536 := by omega
      have hd1e : (d * 2 + bit) % 65536 = (b0 * 256 + b1) / 2 ^ (16 - (k + 1)) := by
        rw [hd, hbit, show 16 - (k + 1) = 15 - k by omega,
          show 16 - k = (15 - k) + 1 by omega, div_bit_step]
        exact Nat.mod_eq_of_lt (lt_of_le_of_lt (Nat.div_le_self _ _) hw16)
      rw [hd1e, hidx, hg.hbits] at h
      have hcsu : cumPre bits k + bits.getD k 0 = cumPre bits (k + 1) :=
        (cumPre_succ k bits (by rw [hg.hlen]; omega)).symm
      rw [hcsu] at h
      simp only [searchFrom, hg.hbits]
      have hwlt : b0 * 256 + b1 < 2 ^ 16 := by
        have hp16 : (2 : Nat) ^ 16 = 65536 := by norm_num
        omega
      have hmod65 : (b0 * 256 + b1) / 2 ^ (16 - (k + 1)) % 65536 =
          (b0 * 256 + b1) / 2 ^ (16 - (k + 1)) := top_mod_eq hwlt (by omega) (le_refl 16)
      rw [hmod65]
      rcases hscan : scanBlock t.codes t.data t.numCodes
          ((b0 * 256 + b1) / 2 ^ (16 - (k + 1))) (cumPre bits k) (bits.getD k 0)
        with _ | sym0
      · rw [hscan] at h
        split_ifs with hcnt
        · show ∃ bl, searchFrom t (b0 * 256 + b1) 16 rem (k + 1)
            (cumPre bits k + bits.getD k 0) = Except.ok (sym, bl)
          rw [hcsu]
          exact ih (k + 1) _ _ s1 sym s2 (by omega) hs1d rfl rfl hph1 h
        · rw [hcsu]
          exact ih (k + 1) _ _ s1 sym s2 (by omega) hs1d rfl rfl hph1 h
      · rw [hscan] at h
        obtain ⟨hsym, -⟩ : sym0 = sym ∧ s1 = s2 := by simpa using h
        have hcnt : 0 < bits.getD k 0 := by
          rcases Nat.eq_zero_or_pos (bits.getD k 0) with h0 | h0
          · rw [h0] at hscan
            exact absurd hscan (by simp [scanBlock])
          · exact h0
        rw [if_pos hcnt]
        exact ⟨k + 1, by rw [hsym]⟩

/-- C1: For a Huffman table built by create_in_pool from a histogram that
satisfies the Kraft inequality (with byte-valued symbols), the three
decode tiers agree to the extent the code permits: decode_fastdecode2
with its lookup table returns exactly the same result as
decode_fastdecode1 on every stream state, and decode_fastdecode0,
started from a stream in its own initial configuration (empty bit
register and exhausted mask), returns the same symbol as
decode_fastdecode1 whenever both succeed.  (The counterexample shows
tier 0 can succeed where tier 1 fails at the end of input, and without
the Kraft bound tiers 1 and 2 can return different symbols, so the
agreement cannot be strengthened to identical results of all three
tiers.) -/
theorem C1_decode_tiers {pool : MemoryPool} {bits values : List Nat} {t : HTable}
    {pool2 : MemoryPool} (hc : createInPool pool bits values = .ok (t, pool2))
    (hbytes : ∀ v ∈ values, v < 256) (hkraft : kraftValid bits) :
    (∀ s : BitStream, decode2 t (buildLut t).1 (buildLut t).2 s = decode1 t s) ∧
    (∀ s : BitStream, s.bitsInBuffer = 0 → s.bitMask = 0 →
      ∀ a b : Nat, ∀ sa sb : BitStream,
        decode0 t s = .ok (a, sa) → decode1 t s = .ok (b, sb) → a = b) := by
  have hg := goodTable_of_create hc hbytes hkraft
  refine ⟨fun s => decode2_eq_decode1 hg s, fun s hbib hmask a b sa sb h0 h1 => ?_⟩
  have hwin := windowOf_zero hbib
  simp only [decode1, hwin] at h1
  rw [fill_two s.data s.pos s.markerFound (s.data.length + 3) (by omega)] at h1
  rcases hda : destuff1 s.data s.pos s.markerFound with _ | ⟨b0, pos1, m1⟩
  · rw [hda] at h1
    exact absurd h1 (by simp)
  · simp only [hda] at h1
    rcases hdb : destuff1 s.data pos1 m1 with _ | ⟨b1, pos2, m2⟩
    · rw [hdb] at h1
      exact absurd h1 (by simp)
    · simp only [hdb] at h1
      have hb0 := destuff1_lt hda
      have hb1 := destuff1_lt hdb
      have hwlt : b0 * 256 + b1 < 2 ^ 16 := by
        have hp16 : (2 : Nat) ^ 16 = 65536 := by norm_num
        omega
      have hph0 : Phase b0 b1 (s.pos, s.markerFound) (pos1, m1) (pos2, m2) 0 s := by
        refine ⟨fun _ => hmask, fun hc2 => absurd (by norm_num) hc2, ?_⟩
        simp [SyncR]
      have h0' : decode0Aux t 16 0 0 0 s = .ok (a, sa) := h0
      obtain ⟨bl0, hsf0⟩ := decode0Aux_eq_search hg hb0 hb1 hda hdb 16 0 0 0 s a sa
        rfl rfl (Nat.div_eq_of_lt hwlt).symm (cumPre_zero bits).symm hph0 h0'
      rw [cumPre_zero] at hsf0
      rw [hsf0] at h1
      have h3 := h1
      simp only [Except.ok.injEq, Prod.mk.injEq] at h3
      exact h3.1

theorem C1_decode_tiers_witness :
    decode2 tableOne (buildLut tableOne).1 (buildLut tableOne).2 (BitStream.new [77]) =
      decode1 tableOne (BitStream.new [77]) :=
  (@C1_decode_tiers (MemoryPool.new 100) bitsOne [42] tableOne (MemoryPool.mk 100 16)
    (by decide) (by decide) (show suffKraft bitsOne ≤ 2 ^ 17 by decide)).1
    (BitStream.new [77])

end TJpgd
